import Mathlib

namespace ConstraintSolver

/-- Arithmetic expressions as sympy parses the attribute strings of
`constraint_solver.py`.  `_build_eqn` first rewrites every dotted reference
`node.attr` into the symbol name `node__attr` (the `expr.replace` call), so a
reference is modelled as the pair of its two segments; `symName` below is the
resulting sympy symbol name.  sympy represents `a - b` as `Add(a, Mul(-1, b))`,
so no separate subtraction constructor is needed. -/
inductive SymExpr where
  | lit : ℚ → SymExpr
  | ref : String → String → SymExpr
  | neg : SymExpr → SymExpr
  | add : SymExpr → SymExpr → SymExpr
  | mul : SymExpr → SymExpr → SymExpr
  | div : SymExpr → SymExpr → SymExpr
deriving DecidableEq, Repr

/-- The sympy symbol standing for attribute `attr` of the node with id `node`,
exactly the string produced by the replacement in `_build_eqn`. -/
def symName (node attr : String) : String := node ++ "__" ++ attr

/-- Value of an expression under an assignment of rationals to symbol names. -/
def SymExpr.eval (σ : String → ℚ) : SymExpr → ℚ
  | .lit q => q
  | .ref n a => σ (symName n a)
  | .neg e => - SymExpr.eval σ e
  | .add a b => SymExpr.eval σ a + SymExpr.eval σ b
  | .mul a b => SymExpr.eval σ a * SymExpr.eval σ b
  | .div a b => SymExpr.eval σ a / SymExpr.eval σ b

/-- The symbol names syntactically referenced by an expression. -/
def SymExpr.refNames : SymExpr → List String
  | .lit _ => []
  | .ref n a => [symName n a]
  | .neg e => SymExpr.refNames e
  | .add a b => SymExpr.refNames a ++ SymExpr.refNames b
  | .mul a b => SymExpr.refNames a ++ SymExpr.refNames b
  | .div a b => SymExpr.refNames a ++ SymExpr.refNames b

/-- The dotted references `(node, attr)` occurring in an expression. -/
def SymExpr.refPairs : SymExpr → List (String × String)
  | .lit _ => []
  | .ref n a => [(n, a)]
  | .neg e => SymExpr.refPairs e
  | .add a b => SymExpr.refPairs a ++ SymExpr.refPairs b
  | .mul a b => SymExpr.refPairs a ++ SymExpr.refPairs b
  | .div a b => SymExpr.refPairs a ++ SymExpr.refPairs b

/-- A linear combination in sympy's collected form: like terms merged, zero
coefficients dropped, plus a constant term. -/
structure Lin where
  terms : List (String × ℚ)
  const : ℚ
deriving DecidableEq, Repr

/-- Merge a coefficient for symbol `n` into a collected term list, the way
sympy's `Add` automatically combines like terms and drops zero coefficients. -/
def addTerm (n : String) (q : ℚ) : List (String × ℚ) → List (String × ℚ)
  | [] => if q = 0 then [] else [(n, q)]
  | (m, c) :: rest =>
    if n = m then (if q + c = 0 then rest else (m, q + c) :: rest)
    else (m, c) :: addTerm n q rest

def linAdd (l₁ l₂ : Lin) : Lin :=
  ⟨l₂.terms.foldl (fun acc t => addTerm t.1 t.2 acc) l₁.terms, l₁.const + l₂.const⟩

def linScale (q : ℚ) (l : Lin) : Lin :=
  if q = 0 then ⟨[], 0⟩ else ⟨l.terms.map (fun t => (t.1, q * t.2)), q * l.const⟩

/-- Linear normal form of an expression, when it is linear (the only shape
`linsolve` accepts; every expression in the program is of this shape). -/
def SymExpr.lin : SymExpr → Option Lin
  | .lit q => some ⟨[], q⟩
  | .ref n a => some ⟨[(symName n a, 1)], 0⟩
  | .neg e => (SymExpr.lin e).map (linScale (-1))
  | .add a b => match SymExpr.lin a, SymExpr.lin b with
    | some la, some lb => some (linAdd la lb)
    | _, _ => none
  | .mul a b => match SymExpr.lin a, SymExpr.lin b with
    | some ⟨[], c⟩, some lb => some (linScale c lb)
    | some la, some ⟨[], c⟩ => some (linScale c la)
    | _, _ => none
  | .div a b => match SymExpr.lin a, SymExpr.lin b with
    | some la, some ⟨[], c⟩ => if c = 0 then none else some (linScale (1 / c) la)
    | _, _ => none

def evalLin (σ : String → ℚ) (l : Lin) : ℚ :=
  l.terms.foldr (fun t acc => t.2 * σ t.1 + acc) l.const

/-- Whether the collected form is the sympy zero object. -/
def linIsZero (l : Lin) : Bool := l.terms.isEmpty && (l.const == 0)

/-- sympy's truthiness of an expression: `bool(expr)` is `False` exactly when
automatic simplification yields the zero object.  For the linear fragment this
happens exactly when the collected form is zero; a non-linear expression in
this grammar never collapses to zero. -/
def sympyNonzero (e : SymExpr) : Bool :=
  match SymExpr.lin e with
  | some l => !(linIsZero l)
  | none => true

/-- One element dict of the layout tree: `type`, `id`, the string-valued
geometric attribute entries (the only keys `_build_eqn` is ever called with are
the six geometric ones, but arbitrary expression-valued keys may be present),
the `color` tuple, and the optional `children` list (`e.get('children')` is
`None` when the key is absent). -/
inductive Element where
  | mk : (typ : String) → (id : String) → (attrs : List (String × SymExpr)) →
      (color : List ℚ) → (children : Option (List Element)) → Element

def Element.typ : Element → String
  | .mk t _ _ _ _ => t

def Element.id : Element → String
  | .mk _ i _ _ _ => i

def Element.attrs : Element → List (String × SymExpr)
  | .mk _ _ a _ _ => a

def Element.color : Element → List ℚ
  | .mk _ _ _ c _ => c

def Element.children : Element → Option (List Element)
  | .mk _ _ _ _ ch => ch

/-- `_build_eqn(element, key)`: `None` when `key not in element`; otherwise the
sympy expression `S("-{id}__{key} + {expr}")` with dots already replaced. -/
def build_eqn (e : Element) (key : String) : Option SymExpr :=
  match e.attrs.lookup key with
  | none => none
  | some ex => some (SymExpr.add (SymExpr.neg (SymExpr.ref e.id key)) ex)

/-- The identity equation `S("-{0}__right + {0}__x + {0}__w")` of a node. -/
def identRight (i : String) : SymExpr :=
  SymExpr.add (SymExpr.add (SymExpr.neg (SymExpr.ref i "right")) (SymExpr.ref i "x"))
    (SymExpr.ref i "w")

/-- The identity equation `S("-{0}__bottom + {0}__y + {0}__h")` of a node. -/
def identBottom (i : String) : SymExpr :=
  SymExpr.add (SymExpr.add (SymExpr.neg (SymExpr.ref i "bottom")) (SymExpr.ref i "y"))
    (SymExpr.ref i "h")

/-- The final list comprehension `[e for e in eqns if e]` keeps an entry when
it is neither `None` nor the sympy zero object. -/
def keepTruthy : Option SymExpr → Option SymExpr
  | none => none
  | some ex => if sympyNonzero ex then some ex else none

mutual

/-- The `for e in elements` loop body of `get_equations`: the eight slots
appended for each element (six `_build_eqn` results and the two identities)
followed by the recursive call on `e.get('children')`, before the final
comprehension filters the accumulated list. -/
def elemsEqns : List Element → List (Option SymExpr)
  | [] => []
  | .mk t i attrs c ch :: rest =>
    (([build_eqn (.mk t i attrs c ch) "x", build_eqn (.mk t i attrs c ch) "y",
       build_eqn (.mk t i attrs c ch) "w", build_eqn (.mk t i attrs c ch) "h",
       build_eqn (.mk t i attrs c ch) "right", build_eqn (.mk t i attrs c ch) "bottom",
       some (identRight i), some (identBottom i)]
      ++ (get_equations ch).map some))
    ++ elemsEqns rest

/-- `get_equations(elements)`: returns `[]` for `None` or an empty list
(`if not elements`), otherwise accumulates the equations of every element and
filters the result with `[e for e in eqns if e]`. -/
def get_equations : Option (List Element) → List SymExpr
  | none => []
  | some [] => []
  | some es => (elemsEqns es).filterMap keepTruthy

end

mutual

/-- All elements of a subtree list, the node itself before its children. -/
def allElems : List Element → List Element
  | [] => []
  | .mk t i attrs c ch :: rest =>
    Element.mk t i attrs c ch :: (allElemsOpt ch ++ allElems rest)

def allElemsOpt : Option (List Element) → List Element
  | none => []
  | some es => allElems es

end

def idsOf (es : List Element) : List String := (allElems es).map Element.id

/-- All symbol names referenced by some declared attribute expression
anywhere in the tree. -/
def treeRefSyms (es : List Element) : List String :=
  (allElems es).flatMap (fun m => m.attrs.flatMap (fun p => p.2.refNames))

/-- The children of the root of the embedded three-rectangle layout literal of
`constraint_solver.py`. -/
def rect1 : Element :=
  .mk "Rect" "rect1"
    [("x", .lit 0), ("y", .lit 0),
     ("w", .div (.ref "parent" "w") (.lit 2)), ("h", .ref "parent" "h")]
    [0, 255, 0, 255] none

def rect2 : Element :=
  .mk "Rect" "rect2"
    [("x", .ref "rect1" "right"), ("y", .lit 0),
     ("right", .ref "parent" "right"), ("h", .div (.ref "parent" "h") (.lit 2))]
    [0, 0, 255, 255] none

def rect3 : Element :=
  .mk "Rect" "rect3"
    [("x", .ref "rect2" "x"), ("y", .ref "rect2" "bottom"),
     ("w", .ref "rect2" "w"), ("bottom", .ref "parent" "bottom")]
    [0, 0, 255, 255] none

/-- The root element of the embedded layout; its id is the literal string
`"parent"`, which is what makes the `parent.attr` references of its children
point at it. -/
def parentElem : Element :=
  .mk "Rect" "parent"
    [("x", .lit 0), ("y", .lit 0), ("w", .lit 800), ("h", .lit 600)]
    [255, 0, 0, 255] (some [rect1, rect2, rect3])

/-- The module-level `layout` literal of `constraint_solver.py`. -/
def layout : List Element := [parentElem]

/-- An assignment satisfies an equation list when every equation vanishes:
exactly membership in the solution set `linsolve(equations, *symbols)`
computes. -/
def Satisfies (σ : String → ℚ) (eqns : List SymExpr) : Prop :=
  ∀ e ∈ eqns, e.eval σ = 0

instance (σ : String → ℚ) (eqns : List SymExpr) : Decidable (Satisfies σ eqns) :=
  inferInstanceAs (Decidable (∀ e ∈ eqns, e.eval σ = 0))

/-- Value of a collected term list under an assignment. -/
def evalTerms (σ : String → ℚ) (ts : List (String × ℚ)) : ℚ :=
  ts.foldr (fun t acc => t.2 * σ t.1 + acc) 0

theorem evalLin_eq (σ : String → ℚ) (l : Lin) :
    evalLin σ l = evalTerms σ l.terms + l.const := by
  cases l with
  | mk ts c =>
    simp only [evalLin, evalTerms]
    induction ts with
    | nil => simp
    | cons t rest ih => simp [ih]; ring

theorem evalTerms_addTerm (σ : String → ℚ) (n : String) (q : ℚ) (ts : List (String × ℚ)) :
    evalTerms σ (addTerm n q ts) = q * σ n + evalTerms σ ts := by
  induction ts with
  | nil =>
    by_cases h : q = 0 <;> simp [addTerm, h, evalTerms]
  | cons t rest ih =>
    obtain ⟨m, c⟩ := t
    by_cases h : n = m
    · subst h
      by_cases h2 : q + c = 0
      · have hq : q = -c := by linarith
        simp [addTerm, h2, evalTerms, hq]
      · simp [addTerm, h2, evalTerms]
        ring
    · simp [addTerm, h, evalTerms] at ih ⊢
      rw [ih]; ring

theorem evalTerms_foldl_addTerm (σ : String → ℚ) (l : List (String × ℚ)) :
    ∀ acc, evalTerms σ (l.foldl (fun acc t => addTerm t.1 t.2 acc) acc) =
      evalTerms σ l + evalTerms σ acc := by
  induction l with
  | nil => intro acc; simp [evalTerms]
  | cons t rest ih =>
    intro acc
    simp only [List.foldl_cons, ih, evalTerms_addTerm]
    simp [evalTerms]; ring

theorem evalLin_linAdd (σ : String → ℚ) (l₁ l₂ : Lin) :
    evalLin σ (linAdd l₁ l₂) = evalLin σ l₁ + evalLin σ l₂ := by
  simp [linAdd, evalLin_eq, evalTerms_foldl_addTerm]; ring

theorem evalTerms_map_scale (σ : String → ℚ) (q : ℚ) (ts : List (String × ℚ)) :
    evalTerms σ (ts.map (fun t => (t.1, q * t.2))) = q * evalTerms σ ts := by
  induction ts with
  | nil => simp [evalTerms]
  | cons t rest ih => simp [evalTerms] at ih ⊢; rw [ih]; ring

theorem evalLin_linScale (σ : String → ℚ) (q : ℚ) (l : Lin) :
    evalLin σ (linScale q l) = q * evalLin σ l := by
  by_cases h : q = 0
  · simp [linScale, h, evalLin_eq, evalTerms]
  · simp [linScale, h, evalLin_eq, evalTerms_map_scale]; ring

/-- Soundness of the collected form: a linearizable expression evaluates to the
value of its collected form. -/
theorem lin_sound : ∀ (e : SymExpr) (l : Lin), SymExpr.lin e = some l →
    ∀ σ, e.eval σ = evalLin σ l := by
  intro e
  induction e with
  | lit q => intro l hl σ; simp [SymExpr.lin] at hl; subst hl; simp [SymExpr.eval, evalLin_eq, evalTerms]
  | ref n a => intro l hl σ; simp [SymExpr.lin] at hl; subst hl; simp [SymExpr.eval, evalLin_eq, evalTerms]
  | neg e ih =>
    intro l hl σ
    simp only [SymExpr.lin] at hl
    cases he : SymExpr.lin e with
    | none => rw [he] at hl; simp at hl
    | some le =>
      rw [he] at hl
      simp at hl
      subst hl
      simp [SymExpr.eval, ih le he σ, evalLin_linScale]
  | add a b iha ihb =>
    intro l hl σ
    simp only [SymExpr.lin] at hl
    cases ha : SymExpr.lin a with
    | none => rw [ha] at hl; simp at hl
    | some la =>
      cases hb : SymExpr.lin b with
      | none => rw [ha, hb] at hl; simp at hl
      | some lb =>
        rw [ha, hb] at hl
        simp at hl; subst hl
        simp [SymExpr.eval, iha la ha σ, ihb lb hb σ, evalLin_linAdd]
  | mul a b iha ihb =>
    intro l hl σ
    simp only [SymExpr.lin] at hl
    cases ha : SymExpr.lin a with
    | none => rw [ha] at hl; simp at hl
    | some la =>
      cases hb : SymExpr.lin b with
      | none =>
        rw [ha, hb] at hl
        obtain ⟨ta, ca⟩ := la
        cases ta <;> simp at hl
      | some lb =>
        rw [ha, hb] at hl
        obtain ⟨ta, ca⟩ := la
        obtain ⟨tb, cb⟩ := lb
        cases ta with
        | nil =>
          simp at hl; subst hl
          have ha2 := iha ⟨[], ca⟩ ha σ
          simp [evalLin_eq, evalTerms] at ha2
          simp [SymExpr.eval, ha2, ihb ⟨tb, cb⟩ hb σ, evalLin_linScale]
        | cons t ta' =>
          cases tb with
          | nil =>
            simp at hl; subst hl
            have hb2 := ihb ⟨[], cb⟩ hb σ
            simp [evalLin_eq, evalTerms] at hb2
            simp [SymExpr.eval, hb2, iha ⟨t :: ta', ca⟩ ha σ, evalLin_linScale]
            ring
          | cons s tb' => simp at hl
  | div a b iha ihb =>
    intro l hl σ
    simp only [SymExpr.lin] at hl
    cases ha : SymExpr.lin a with
    | none => rw [ha] at hl; cases hb : SymExpr.lin b with
      | none => rw [hb] at hl; simp at hl
      | some lb =>
        rw [hb] at hl
        obtain ⟨tb, cb⟩ := lb
        cases tb <;> simp at hl
    | some la =>
      cases hb : SymExpr.lin b with
      | none => rw [ha, hb] at hl; simp at hl
      | some lb =>
        rw [ha, hb] at hl
        obtain ⟨tb, cb⟩ := lb
        cases tb with
        | nil =>
          by_cases hc : cb = 0
          · simp [hc] at hl
          · simp [hc] at hl; subst hl
            have hb2 := ihb ⟨[], cb⟩ hb σ
            simp [evalLin_eq, evalTerms] at hb2
            simp [SymExpr.eval, hb2, iha la ha σ, evalLin_linScale]
            field_simp
        | cons s tb' => simp at hl

/-- When sympy's truthiness filter drops an expression, that expression is
identically zero. -/
theorem eval_of_not_truthy {e : SymExpr} (h : sympyNonzero e = false) :
    ∀ σ, e.eval σ = 0 := by
  intro σ
  unfold sympyNonzero at h
  cases hl : SymExpr.lin e with
  | none => rw [hl] at h; simp at h
  | some l =>
    rw [hl] at h
    simp only [Bool.not_eq_false'] at h
    obtain ⟨ts, c⟩ := l
    simp only [linIsZero, Bool.and_eq_true, List.isEmpty_iff, beq_iff_eq] at h
    obtain ⟨h1, h2⟩ := h
    rw [lin_sound e ⟨ts, c⟩ hl σ]
    simp [h1, h2, evalLin_eq, evalTerms]

theorem truthy_of_eval (σ : String → ℚ) {e : SymExpr} (h : e.eval σ ≠ 0) :
    sympyNonzero e = true := by
  by_contra hc
  simp only [Bool.not_eq_true] at hc
  exact h (eval_of_not_truthy hc σ)

/-- Evaluation only depends on the referenced symbols. -/
theorem eval_congr {σ σ' : String → ℚ} : ∀ (e : SymExpr),
    (∀ s ∈ e.refNames, σ s = σ' s) → e.eval σ = e.eval σ' := by
  intro e
  induction e with
  | lit q => intro _; simp [SymExpr.eval]
  | ref n a => intro h; simp [SymExpr.eval]; exact h _ (by simp [SymExpr.refNames])
  | neg e ih => intro h; simp only [SymExpr.eval]; rw [ih (fun s hs => h s (by simpa [SymExpr.refNames] using hs))]
  | add a b iha ihb =>
    intro h
    simp only [SymExpr.eval]
    rw [iha fun s hs => h s (by simp [SymExpr.refNames]; exact Or.inl hs),
      ihb fun s hs => h s (by simp [SymExpr.refNames]; exact Or.inr hs)]
  | mul a b iha ihb =>
    intro h
    simp only [SymExpr.eval]
    rw [iha fun s hs => h s (by simp [SymExpr.refNames]; exact Or.inl hs),
      ihb fun s hs => h s (by simp [SymExpr.refNames]; exact Or.inr hs)]
  | div a b iha ihb =>
    intro h
    simp only [SymExpr.eval]
    rw [iha fun s hs => h s (by simp [SymExpr.refNames]; exact Or.inl hs),
      ihb fun s hs => h s (by simp [SymExpr.refNames]; exact Or.inr hs)]

/-- The two identity equations never simplify to zero, so the final
comprehension always keeps them. -/
theorem truthy_identRight (i : String) : sympyNonzero (identRight i) = true := by
  apply truthy_of_eval (fun _ => 1)
  simp [identRight, SymExpr.eval]

theorem truthy_identBottom (i : String) : sympyNonzero (identBottom i) = true := by
  apply truthy_of_eval (fun _ => 1)
  simp [identBottom, SymExpr.eval]

/-- A declared-attribute equation whose right-hand side does not mention the
declared symbol itself never simplifies to zero. -/
theorem truthy_build (i k : String) (ex : SymExpr) (h : symName i k ∉ ex.refNames) :
    sympyNonzero (SymExpr.add (SymExpr.neg (SymExpr.ref i k)) ex) = true := by
  set K := ex.eval (fun _ => 0) with hK
  apply truthy_of_eval (fun s => if s = symName i k then K + 1 else 0)
  have hc : ∀ s ∈ ex.refNames,
      (fun s => if s = symName i k then K + 1 else 0) s = (fun _ => (0 : ℚ)) s := by
    intro s hs
    have hne : s ≠ symName i k := fun hcon => h (hcon ▸ hs)
    simp [hne]
  have hKeq : ex.eval (fun s => if s = symName i k then K + 1 else 0) = K := by
    rw [eval_congr ex hc]
  simp [SymExpr.eval, hKeq]

def probedKeys : List String := ["x", "y", "w", "h", "right", "bottom"]

theorem get_equations_eq (es : List Element) :
    get_equations (some es) = (elemsEqns es).filterMap keepTruthy := by
  cases es <;> simp [get_equations, elemsEqns]

theorem keepTruthy_some_iff {o : Option SymExpr} {x : SymExpr} :
    keepTruthy o = some x ↔ o = some x ∧ sympyNonzero x = true := by
  cases o with
  | none => simp [keepTruthy]
  | some ex =>
    show (if sympyNonzero ex then some ex else none) = some x ↔ _
    constructor
    · intro h
      split at h
      · next ht => cases h; exact ⟨rfl, ht⟩
      · exact absurd h (by simp)
    · rintro ⟨he, ht⟩
      cases he
      simp [ht]

theorem mem_get_equations_iff {es : List Element} {x : SymExpr} :
    x ∈ get_equations (some es) ↔ some x ∈ elemsEqns es ∧ sympyNonzero x = true := by
  rw [get_equations_eq, List.mem_filterMap]
  constructor
  · rintro ⟨o, ho, hk⟩
    obtain ⟨h1, h2⟩ := keepTruthy_some_iff.mp hk
    exact ⟨h1 ▸ ho, h2⟩
  · rintro ⟨ho, ht⟩
    exact ⟨some x, ho, keepTruthy_some_iff.mpr ⟨rfl, ht⟩⟩

theorem truthy_of_mem {o : Option (List Element)} {x : SymExpr}
    (hx : x ∈ get_equations o) : sympyNonzero x = true := by
  cases o with
  | none => simp [get_equations] at hx
  | some es => exact (mem_get_equations_iff.mp hx).2

theorem elemsEqns_cons (e : Element) (rest : List Element) :
    elemsEqns (e :: rest) =
      ([build_eqn e "x", build_eqn e "y", build_eqn e "w", build_eqn e "h",
        build_eqn e "right", build_eqn e "bottom",
        some (identRight e.id), some (identBottom e.id)]
       ++ (get_equations e.children).map some)
      ++ elemsEqns rest := by
  cases e; simp [elemsEqns, Element.id, Element.children]

theorem allElems_cons (e : Element) (rest : List Element) :
    allElems (e :: rest) = e :: (allElemsOpt e.children ++ allElems rest) := by
  cases e; simp [allElems, Element.children]

theorem allElemsOpt_some (es : List Element) : allElemsOpt (some es) = allElems es := by
  simp [allElemsOpt]

theorem mem_lift_child {x : SymExpr} (e : Element) (rest : List Element)
    (hx : x ∈ get_equations e.children) : x ∈ get_equations (some (e :: rest)) := by
  refine mem_get_equations_iff.mpr ⟨?_, truthy_of_mem hx⟩
  rw [elemsEqns_cons]
  exact List.mem_append.mpr (Or.inl (List.mem_append.mpr (Or.inr
    (List.mem_map_of_mem _ hx))))

theorem mem_lift_rest {x : SymExpr} (e : Element) (rest : List Element)
    (hx : x ∈ get_equations (some rest)) : x ∈ get_equations (some (e :: rest)) := by
  obtain ⟨ho, ht⟩ := mem_get_equations_iff.mp hx
  refine mem_get_equations_iff.mpr ⟨?_, ht⟩
  rw [elemsEqns_cons]
  exact List.mem_append.mpr (Or.inr ho)

mutual

/-- The two identity equations of every node of the tree are emitted into the
assembled system (and survive the truthiness filter). -/
theorem ident_mem_list (es : List Element) (e : Element) (he : e ∈ allElems es) :
    identRight e.id ∈ get_equations (some es) ∧
      identBottom e.id ∈ get_equations (some es) :=
  match es, he with
  | [], he => by simp [allElems] at he
  | .mk t i attrs c ch :: rest, he => by
    rw [allElems_cons] at he
    rcases List.mem_cons.mp he with h | h
    · subst h
      constructor
      · refine mem_get_equations_iff.mpr ⟨?_, truthy_identRight _⟩
        rw [elemsEqns_cons]
        simp
      · refine mem_get_equations_iff.mpr ⟨?_, truthy_identBottom _⟩
        rw [elemsEqns_cons]
        simp
    · rcases List.mem_append.mp h with h2 | h2
      · have hch : Element.children (.mk t i attrs c ch) = ch := rfl
        have := ident_mem_opt ch e h2
        exact ⟨mem_lift_child _ _ (hch ▸ this.1), mem_lift_child _ _ (hch ▸ this.2)⟩
      · have := ident_mem_list rest e h2
        exact ⟨mem_lift_rest _ _ this.1, mem_lift_rest _ _ this.2⟩

theorem ident_mem_opt (o : Option (List Element)) (e : Element)
    (he : e ∈ allElemsOpt o) :
    identRight e.id ∈ get_equations o ∧ identBottom e.id ∈ get_equations o :=
  match o, he with
  | none, he => by simp [allElemsOpt] at he
  | some es, he => ident_mem_list es e (allElemsOpt_some es ▸ he)

end

mutual

/-- Every equation of the assembled system comes from some element: either a
declared-attribute equation built by `_build_eqn` for one of the six probed
keys, or one of the two identity equations. -/
theorem mem_cases_list (es : List Element) (x : SymExpr)
    (hx : x ∈ get_equations (some es)) :
    ∃ e ∈ allElems es,
      (∃ k ∈ probedKeys, build_eqn e k = some x) ∨
        x = identRight e.id ∨ x = identBottom e.id :=
  match es, hx with
  | [], hx => by rw [get_equations_eq] at hx; simp [elemsEqns] at hx
  | .mk t i attrs c ch :: rest, hx => by
    obtain ⟨ho, htr⟩ := mem_get_equations_iff.mp hx
    rw [elemsEqns_cons] at ho
    rcases List.mem_append.mp ho with h | h
    · rcases List.mem_append.mp h with h2 | h2
      · set e : Element := .mk t i attrs c ch with hedef
        have hmem : e ∈ allElems (Element.mk t i attrs c ch :: rest) := by
          rw [allElems_cons]; exact List.mem_cons_self _ _
        simp only [List.mem_cons, List.not_mem_nil, or_false] at h2
        rcases h2 with h3 | h3 | h3 | h3 | h3 | h3 | h3 | h3
        · exact ⟨e, hmem, Or.inl ⟨"x", by simp [probedKeys], h3.symm⟩⟩
        · exact ⟨e, hmem, Or.inl ⟨"y", by simp [probedKeys], h3.symm⟩⟩
        · exact ⟨e, hmem, Or.inl ⟨"w", by simp [probedKeys], h3.symm⟩⟩
        · exact ⟨e, hmem, Or.inl ⟨"h", by simp [probedKeys], h3.symm⟩⟩
        · exact ⟨e, hmem, Or.inl ⟨"right", by simp [probedKeys], h3.symm⟩⟩
        · exact ⟨e, hmem, Or.inl ⟨"bottom", by simp [probedKeys], h3.symm⟩⟩
        · exact ⟨e, hmem, Or.inr (Or.inl (by injection h3))⟩
        · exact ⟨e, hmem, Or.inr (Or.inr (by injection h3))⟩
      · obtain ⟨y, hy, hyx⟩ := List.mem_map.mp h2
        have hxy : x = y := by injection hyx.symm
        subst hxy
        obtain ⟨e, he, hP⟩ := mem_cases_opt ch x hy
        refine ⟨e, ?_, hP⟩
        rw [allElems_cons]
        exact List.mem_cons.mpr (Or.inr (List.mem_append.mpr (Or.inl he)))
    · have : x ∈ get_equations (some rest) := mem_get_equations_iff.mpr ⟨h, htr⟩
      obtain ⟨e, he, hP⟩ := mem_cases_list rest x this
      refine ⟨e, ?_, hP⟩
      rw [allElems_cons]
      exact List.mem_cons.mpr (Or.inr (List.mem_append.mpr (Or.inr he)))

theorem mem_cases_opt (o : Option (List Element)) (x : SymExpr)
    (hx : x ∈ get_equations o) :
    ∃ e ∈ allElemsOpt o,
      (∃ k ∈ probedKeys, build_eqn e k = some x) ∨
        x = identRight e.id ∨ x = identBottom e.id :=
  match o, hx with
  | none, hx => by simp [get_equations] at hx
  | some es, hx => by
    rw [allElemsOpt_some]
    exact mem_cases_list es x hx

end

mutual

/-- A declared-attribute equation that does not simplify to zero is emitted
into the assembled system, for any element of the tree. -/
theorem decl_mem_list (es : List Element) (e : Element) (he : e ∈ allElems es)
    (k : String) (hk : k ∈ probedKeys) (x : SymExpr) (hb : build_eqn e k = some x)
    (ht : sympyNonzero x = true) : x ∈ get_equations (some es) :=
  match es, he with
  | [], he => by simp [allElems] at he
  | .mk t i attrs c ch :: rest, he => by
    rw [allElems_cons] at he
    rcases List.mem_cons.mp he with h | h
    · subst h
      refine mem_get_equations_iff.mpr ⟨?_, ht⟩
      rw [elemsEqns_cons]
      refine List.mem_append.mpr (Or.inl (List.mem_append.mpr (Or.inl ?_)))
      simp only [probedKeys, List.mem_cons, List.not_mem_nil, or_false] at hk
      rcases hk with h | h | h | h | h | h <;> subst h <;> simp [hb.symm]
    · rcases List.mem_append.mp h with h2 | h2
      · have hch : Element.children (.mk t i attrs c ch) = ch := rfl
        exact mem_lift_child _ _ (hch ▸ decl_mem_opt ch e h2 k hk x hb ht)
      · exact mem_lift_rest _ _ (decl_mem_list rest e h2 k hk x hb ht)

theorem decl_mem_opt (o : Option (List Element)) (e : Element)
    (he : e ∈ allElemsOpt o) (k : String) (hk : k ∈ probedKeys) (x : SymExpr)
    (hb : build_eqn e k = some x) (ht : sympyNonzero x = true) :
    x ∈ get_equations o :=
  match o, he with
  | none, he => by simp [allElemsOpt] at he
  | some es, he => decl_mem_list es e (allElemsOpt_some es ▸ he) k hk x hb ht

end

/-- The 24 equations `get_equations(layout)` produces, in traversal order. -/
def layoutEqns : List SymExpr :=
  [SymExpr.add (SymExpr.neg (SymExpr.ref "parent" "x")) (SymExpr.lit 0),
   SymExpr.add (SymExpr.neg (SymExpr.ref "parent" "y")) (SymExpr.lit 0),
   SymExpr.add (SymExpr.neg (SymExpr.ref "parent" "w")) (SymExpr.lit 800),
   SymExpr.add (SymExpr.neg (SymExpr.ref "parent" "h")) (SymExpr.lit 600),
   identRight "parent", identBottom "parent",
   SymExpr.add (SymExpr.neg (SymExpr.ref "rect1" "x")) (SymExpr.lit 0),
   SymExpr.add (SymExpr.neg (SymExpr.ref "rect1" "y")) (SymExpr.lit 0),
   SymExpr.add (SymExpr.neg (SymExpr.ref "rect1" "w"))
     (SymExpr.div (SymExpr.ref "parent" "w") (SymExpr.lit 2)),
   SymExpr.add (SymExpr.neg (SymExpr.ref "rect1" "h")) (SymExpr.ref "parent" "h"),
   identRight "rect1", identBottom "rect1",
   SymExpr.add (SymExpr.neg (SymExpr.ref "rect2" "x")) (SymExpr.ref "rect1" "right"),
   SymExpr.add (SymExpr.neg (SymExpr.ref "rect2" "y")) (SymExpr.lit 0),
   SymExpr.add (SymExpr.neg (SymExpr.ref "rect2" "h"))
     (SymExpr.div (SymExpr.ref "parent" "h") (SymExpr.lit 2)),
   SymExpr.add (SymExpr.neg (SymExpr.ref "rect2" "right")) (SymExpr.ref "parent" "right"),
   identRight "rect2", identBottom "rect2",
   SymExpr.add (SymExpr.neg (SymExpr.ref "rect3" "x")) (SymExpr.ref "rect2" "x"),
   SymExpr.add (SymExpr.neg (SymExpr.ref "rect3" "y")) (SymExpr.ref "rect2" "bottom"),
   SymExpr.add (SymExpr.neg (SymExpr.ref "rect3" "w")) (SymExpr.ref "rect2" "w"),
   SymExpr.add (SymExpr.neg (SymExpr.ref "rect3" "bottom")) (SymExpr.ref "parent" "bottom"),
   identRight "rect3", identBottom "rect3"]

theorem keepTruthy_build (i k : String) (ex : SymExpr) (h : symName i k ∉ ex.refNames) :
    keepTruthy (some (SymExpr.add (SymExpr.neg (SymExpr.ref i k)) ex)) =
      some (SymExpr.add (SymExpr.neg (SymExpr.ref i k)) ex) := by
  simp [keepTruthy, truthy_build i k ex h]

theorem keepTruthy_identRight (i : String) :
    keepTruthy (some (identRight i)) = some (identRight i) := by
  simp [keepTruthy, truthy_identRight]

theorem keepTruthy_identBottom (i : String) :
    keepTruthy (some (identBottom i)) = some (identBottom i) := by
  simp [keepTruthy, truthy_identBottom]

theorem keepTruthy_none : keepTruthy none = none := rfl

theorem filterMap_comp_keepTruthy {l : List SymExpr}
    (h : ∀ x ∈ l, sympyNonzero x = true) :
    l.filterMap (keepTruthy ∘ some) = l := by
  induction l with
  | nil => simp
  | cons a t ih =>
    have ha : keepTruthy (some a) = some a := by
      simp [keepTruthy, h a (List.mem_cons_self a t)]
    simp only [List.filterMap_cons, Function.comp_apply, ha]
    rw [ih (fun x hx => h x (List.mem_cons_of_mem a hx))]

theorem filterMap_keepTruthy_map_some {l : List SymExpr}
    (h : ∀ x ∈ l, sympyNonzero x = true) :
    (l.map some).filterMap keepTruthy = l := by
  rw [List.filterMap_map]
  exact filterMap_comp_keepTruthy h

theorem get_equations_children : get_equations (some [rect1, rect2, rect3]) =
    layoutEqns.drop 6 := by
  rw [get_equations_eq, elemsEqns_cons, elemsEqns_cons, elemsEqns_cons]
  have h0 : elemsEqns [] = [] := by simp [elemsEqns]
  have hn : get_equations none = [] := by simp [get_equations]
  rw [h0, show rect1.children = none from rfl, show rect2.children = none from rfl,
    show rect3.children = none from rfl, hn]
  simp only [show build_eqn rect1 "x" =
      some (SymExpr.add (SymExpr.neg (SymExpr.ref "rect1" "x")) (SymExpr.lit 0)) from rfl,
    show build_eqn rect1 "y" =
      some (SymExpr.add (SymExpr.neg (SymExpr.ref "rect1" "y")) (SymExpr.lit 0)) from rfl,
    show build_eqn rect1 "w" = some (SymExpr.add (SymExpr.neg (SymExpr.ref "rect1" "w"))
      (SymExpr.div (SymExpr.ref "parent" "w") (SymExpr.lit 2))) from rfl,
    show build_eqn rect1 "h" = some (SymExpr.add (SymExpr.neg (SymExpr.ref "rect1" "h"))
      (SymExpr.ref "parent" "h")) from rfl,
    show build_eqn rect1 "right" = none from rfl,
    show build_eqn rect1 "bottom" = none from rfl,
    show build_eqn rect2 "x" = some (SymExpr.add (SymExpr.neg (SymExpr.ref "rect2" "x"))
      (SymExpr.ref "rect1" "right")) from rfl,
    show build_eqn rect2 "y" =
      some (SymExpr.add (SymExpr.neg (SymExpr.ref "rect2" "y")) (SymExpr.lit 0)) from rfl,
    show build_eqn rect2 "w" = none from rfl,
    show build_eqn rect2 "h" = some (SymExpr.add (SymExpr.neg (SymExpr.ref "rect2" "h"))
      (SymExpr.div (SymExpr.ref "parent" "h") (SymExpr.lit 2))) from rfl,
    show build_eqn rect2 "right" = some (SymExpr.add (SymExpr.neg
      (SymExpr.ref "rect2" "right")) (SymExpr.ref "parent" "right")) from rfl,
    show build_eqn rect2 "bottom" = none from rfl,
    show build_eqn rect3 "x" = some (SymExpr.add (SymExpr.neg (SymExpr.ref "rect3" "x"))
      (SymExpr.ref "rect2" "x")) from rfl,
    show build_eqn rect3 "y" = some (SymExpr.add (SymExpr.neg (SymExpr.ref "rect3" "y"))
      (SymExpr.ref "rect2" "bottom")) from rfl,
    show build_eqn rect3 "w" = some (SymExpr.add (SymExpr.neg (SymExpr.ref "rect3" "w"))
      (SymExpr.ref "rect2" "w")) from rfl,
    show build_eqn rect3 "h" = none from rfl,
    show build_eqn rect3 "right" = none from rfl,
    show build_eqn rect3 "bottom" = some (SymExpr.add (SymExpr.neg
      (SymExpr.ref "rect3" "bottom")) (SymExpr.ref "parent" "bottom")) from rfl,
    show (Element.id rect1) = "rect1" from rfl, show (Element.id rect2) = "rect2" from rfl,
    show (Element.id rect3) = "rect3" from rfl,
    List.map_nil, List.append_nil, List.nil_append]
  simp only [List.filterMap_append, List.filterMap_cons, List.filterMap_nil,
    keepTruthy_build "rect1" "x" (SymExpr.lit 0) (by decide),
    keepTruthy_build "rect1" "y" (SymExpr.lit 0) (by decide),
    keepTruthy_build "rect1" "w"
      (SymExpr.div (SymExpr.ref "parent" "w") (SymExpr.lit 2)) (by decide),
    keepTruthy_build "rect1" "h" (SymExpr.ref "parent" "h") (by decide),
    keepTruthy_build "rect2" "x" (SymExpr.ref "rect1" "right") (by decide),
    keepTruthy_build "rect2" "y" (SymExpr.lit 0) (by decide),
    keepTruthy_build "rect2" "h"
      (SymExpr.div (SymExpr.ref "parent" "h") (SymExpr.lit 2)) (by decide),
    keepTruthy_build "rect2" "right" (SymExpr.ref "parent" "right") (by decide),
    keepTruthy_build "rect3" "x" (SymExpr.ref "rect2" "x") (by decide),
    keepTruthy_build "rect3" "y" (SymExpr.ref "rect2" "bottom") (by decide),
    keepTruthy_build "rect3" "w" (SymExpr.ref "rect2" "w") (by decide),
    keepTruthy_build "rect3" "bottom" (SymExpr.ref "parent" "bottom") (by decide),
    keepTruthy_identRight, keepTruthy_identBottom, keepTruthy_none]
  simp [layoutEqns]

theorem E_layout : get_equations (some layout) = layoutEqns := by
  rw [show layout = [parentElem] from rfl, get_equations_eq, elemsEqns_cons]
  have h0 : elemsEqns [] = [] := by simp [elemsEqns]
  rw [h0, show parentElem.children = some [rect1, rect2, rect3] from rfl,
    get_equations_children]
  simp only [show build_eqn parentElem "x" =
      some (SymExpr.add (SymExpr.neg (SymExpr.ref "parent" "x")) (SymExpr.lit 0)) from rfl,
    show build_eqn parentElem "y" =
      some (SymExpr.add (SymExpr.neg (SymExpr.ref "parent" "y")) (SymExpr.lit 0)) from rfl,
    show build_eqn parentElem "w" =
      some (SymExpr.add (SymExpr.neg (SymExpr.ref "parent" "w")) (SymExpr.lit 800)) from rfl,
    show build_eqn parentElem "h" =
      some (SymExpr.add (SymExpr.neg (SymExpr.ref "parent" "h")) (SymExpr.lit 600)) from rfl,
    show build_eqn parentElem "right" = none from rfl,
    show build_eqn parentElem "bottom" = none from rfl,
    show (Element.id parentElem) = "parent" from rfl,
    List.append_nil]
  simp only [List.filterMap_append, List.filterMap_map, List.filterMap_cons,
    List.filterMap_nil,
    keepTruthy_build "parent" "x" (SymExpr.lit 0) (by decide),
    keepTruthy_build "parent" "y" (SymExpr.lit 0) (by decide),
    keepTruthy_build "parent" "w" (SymExpr.lit 800) (by decide),
    keepTruthy_build "parent" "h" (SymExpr.lit 600) (by decide),
    keepTruthy_identRight, keepTruthy_identBottom, keepTruthy_none]
  have hall : ∀ x ∈ layoutEqns.drop 6, sympyNonzero x = true := by
    intro x hx
    exact truthy_of_mem (show x ∈ get_equations (some [rect1, rect2, rect3]) by
      rw [get_equations_children]; exact hx)
  rw [filterMap_comp_keepTruthy hall]
  simp [layoutEqns]

/-- The unique solution of the embedded layout, as an assignment of rationals
to sympy symbol names. -/
def sol0 : String → ℚ := fun s =>
  if s = "parent__x" then 0 else if s = "parent__y" then 0
  else if s = "parent__w" then 800 else if s = "parent__h" then 600
  else if s = "parent__right" then 800 else if s = "parent__bottom" then 600
  else if s = "rect1__x" then 0 else if s = "rect1__y" then 0
  else if s = "rect1__w" then 400 else if s = "rect1__h" then 600
  else if s = "rect1__right" then 400 else if s = "rect1__bottom" then 600
  else if s = "rect2__x" then 400 else if s = "rect2__y" then 0
  else if s = "rect2__w" then 400 else if s = "rect2__h" then 300
  else if s = "rect2__right" then 800 else if s = "rect2__bottom" then 300
  else if s = "rect3__x" then 400 else if s = "rect3__y" then 300
  else if s = "rect3__w" then 400 else if s = "rect3__h" then 300
  else if s = "rect3__right" then 800 else if s = "rect3__bottom" then 600
  else 0

theorem sat_sol0 : Satisfies sol0 (get_equations (some layout)) := by
  rw [E_layout]
  intro e he
  simp only [layoutEqns, List.mem_cons, List.not_mem_nil, or_false] at he
  rcases he with rfl | rfl | rfl | rfl | rfl | rfl | rfl | rfl | rfl | rfl | rfl | rfl |
    rfl | rfl | rfl | rfl | rfl | rfl | rfl | rfl | rfl | rfl | rfl | rfl <;>
    simp [SymExpr.eval, identRight, identBottom, sol0, symName] <;> norm_num

/-- Any assignment satisfying the assembled system of the embedded layout takes
the documented value at every one of the 24 variables. -/
theorem layout_values (σ : String → ℚ)
    (hσ : Satisfies σ (get_equations (some layout))) :
    σ (symName "parent" "x") = 0 ∧ σ (symName "parent" "y") = 0 ∧
    σ (symName "parent" "w") = 800 ∧ σ (symName "parent" "h") = 600 ∧
    σ (symName "parent" "right") = 800 ∧ σ (symName "parent" "bottom") = 600 ∧
    σ (symName "rect1" "x") = 0 ∧ σ (symName "rect1" "y") = 0 ∧
    σ (symName "rect1" "w") = 400 ∧ σ (symName "rect1" "h") = 600 ∧
    σ (symName "rect1" "right") = 400 ∧ σ (symName "rect1" "bottom") = 600 ∧
    σ (symName "rect2" "x") = 400 ∧ σ (symName "rect2" "y") = 0 ∧
    σ (symName "rect2" "w") = 400 ∧ σ (symName "rect2" "h") = 300 ∧
    σ (symName "rect2" "right") = 800 ∧ σ (symName "rect2" "bottom") = 300 ∧
    σ (symName "rect3" "x") = 400 ∧ σ (symName "rect3" "y") = 300 ∧
    σ (symName "rect3" "w") = 400 ∧ σ (symName "rect3" "h") = 300 ∧
    σ (symName "rect3" "right") = 800 ∧ σ (symName "rect3" "bottom") = 600 := by
  rw [E_layout] at hσ
  simp only [Satisfies, layoutEqns, List.forall_mem_cons, List.not_mem_nil,
    SymExpr.eval, identRight, identBottom] at hσ
  obtain ⟨h1, h2, h3, h4, h5, h6, h7, h8, h9, h10, h11, h12, h13, h14, h15, h16,
    h17, h18, h19, h20, h21, h22, h23, h24, -⟩ := hσ
  refine ⟨by linarith, by linarith, by linarith, by linarith, by linarith, by linarith,
    by linarith, by linarith, by linarith, by linarith, by linarith, by linarith,
    by linarith, by linarith, by linarith, by linarith, by linarith, by linarith,
    by linarith, by linarith, by linarith, by linarith, by linarith, by linarith⟩

/-- The exceptions the solve line `list(linsolve(equations, *symbols))[0]` of
`main` can raise, together with the error types named by the specification
(which do not exist anywhere in the code). -/
inductive PyExc where
  | indexError
  | contradictionError
  | underdeterminedError : String → PyExc
deriving DecidableEq, Repr

/-- Exception behaviour of the solve in `main` applied to a tree `es`:
`linsolve` returns the solution set of the linear system; when that set is
empty (an inconsistent system), `list(...)` is the empty list and the indexing
`[0]` raises `IndexError`.  When the set is non-empty — including the
underdetermined case, where `linsolve` returns one parametrised solution
tuple — no exception is raised at all.  The single constructor enumerates
every exception the solve can raise, so the spec's `ContradictionError` and
`UnderdeterminedError` are never produced. -/
inductive MainRaises (es : List Element) : PyExc → Prop where
  | idx : (¬ ∃ σ, Satisfies σ (get_equations (some es))) → MainRaises es .indexError

/-- A single-node tree declaring `x`, `y`, `w`, `h` and — redundantly —
`right`, all as literals. -/
def boxElem (a b c d e : ℚ) : Element :=
  .mk "Rect" "box"
    [("x", .lit a), ("y", .lit d), ("w", .lit b), ("h", .lit e), ("right", .lit c)]
    [] none

def boxSol (a b c d e : ℚ) : String → ℚ := fun s =>
  if s = "box__x" then a else if s = "box__y" then d
  else if s = "box__w" then b else if s = "box__h" then e
  else if s = "box__right" then c else if s = "box__bottom" then d + e else 0

theorem E_box (a b c d e : ℚ) : get_equations (some [boxElem a b c d e]) =
    [SymExpr.add (SymExpr.neg (SymExpr.ref "box" "x")) (SymExpr.lit a),
     SymExpr.add (SymExpr.neg (SymExpr.ref "box" "y")) (SymExpr.lit d),
     SymExpr.add (SymExpr.neg (SymExpr.ref "box" "w")) (SymExpr.lit b),
     SymExpr.add (SymExpr.neg (SymExpr.ref "box" "h")) (SymExpr.lit e),
     SymExpr.add (SymExpr.neg (SymExpr.ref "box" "right")) (SymExpr.lit c),
     identRight "box", identBottom "box"] := by
  rw [get_equations_eq, elemsEqns_cons]
  have h0 : elemsEqns [] = [] := by simp [elemsEqns]
  have hn : get_equations none = [] := by simp [get_equations]
  rw [h0, show (boxElem a b c d e).children = none from rfl, hn]
  simp only [show build_eqn (boxElem a b c d e) "x" =
      some (SymExpr.add (SymExpr.neg (SymExpr.ref "box" "x")) (SymExpr.lit a)) from rfl,
    show build_eqn (boxElem a b c d e) "y" =
      some (SymExpr.add (SymExpr.neg (SymExpr.ref "box" "y")) (SymExpr.lit d)) from rfl,
    show build_eqn (boxElem a b c d e) "w" =
      some (SymExpr.add (SymExpr.neg (SymExpr.ref "box" "w")) (SymExpr.lit b)) from rfl,
    show build_eqn (boxElem a b c d e) "h" =
      some (SymExpr.add (SymExpr.neg (SymExpr.ref "box" "h")) (SymExpr.lit e)) from rfl,
    show build_eqn (boxElem a b c d e) "right" =
      some (SymExpr.add (SymExpr.neg (SymExpr.ref "box" "right")) (SymExpr.lit c)) from rfl,
    show build_eqn (boxElem a b c d e) "bottom" = none from rfl,
    show (Element.id (boxElem a b c d e)) = "box" from rfl,
    List.map_nil, List.append_nil, List.nil_append]
  simp only [List.filterMap_cons, List.filterMap_nil,
    keepTruthy_build "box" "x" (SymExpr.lit a) (by simp [SymExpr.refNames]),
    keepTruthy_build "box" "y" (SymExpr.lit d) (by simp [SymExpr.refNames]),
    keepTruthy_build "box" "w" (SymExpr.lit b) (by simp [SymExpr.refNames]),
    keepTruthy_build "box" "h" (SymExpr.lit e) (by simp [SymExpr.refNames]),
    keepTruthy_build "box" "right" (SymExpr.lit c) (by simp [SymExpr.refNames]),
    keepTruthy_identRight, keepTruthy_identBottom, keepTruthy_none]

theorem box_sat {a b c d e : ℚ} (h : c = a + b) :
    Satisfies (boxSol a b c d e) (get_equations (some [boxElem a b c d e])) := by
  rw [E_box]
  intro x hx
  simp only [List.mem_cons, List.not_mem_nil, or_false] at hx
  rcases hx with rfl | rfl | rfl | rfl | rfl | rfl | rfl <;>
    simp [SymExpr.eval, identRight, identBottom, boxSol, symName] <;> linarith

theorem box_unsat {a b c d e : ℚ} (h : c ≠ a + b) :
    ¬ ∃ σ, Satisfies σ (get_equations (some [boxElem a b c d e])) := by
  rintro ⟨σ, hσ⟩
  rw [E_box] at hσ
  simp only [Satisfies, List.forall_mem_cons, List.not_mem_nil, SymExpr.eval,
    identRight, identBottom] at hσ
  obtain ⟨hx, hy, hw, hh, hr, hir, -⟩ := hσ
  exact h (by linarith)

/-- C1: every assignment satisfying the system assembled from the embedded
three-rectangle layout resolves the three children exactly to the documented
rectangles: rect1 `(x 0, y 0, w 400, h 600, right 400, bottom 600)`, rect2
`(x 400, y 0, w 400, h 300, right 800, bottom 300)`, rect3
`(x 400, y 300, w 400, h 300, right 800, bottom 600)`; the witness shows the
system is indeed solvable, so the solve returns exactly these values. -/
theorem layout_resolves_to_documented_values (σ : String → ℚ)
    (hσ : Satisfies σ (get_equations (some layout))) :
    σ (symName "rect1" "x") = 0 ∧ σ (symName "rect1" "y") = 0 ∧
    σ (symName "rect1" "w") = 400 ∧ σ (symName "rect1" "h") = 600 ∧
    σ (symName "rect1" "right") = 400 ∧ σ (symName "rect1" "bottom") = 600 ∧
    σ (symName "rect2" "x") = 400 ∧ σ (symName "rect2" "y") = 0 ∧
    σ (symName "rect2" "w") = 400 ∧ σ (symName "rect2" "h") = 300 ∧
    σ (symName "rect2" "right") = 800 ∧ σ (symName "rect2" "bottom") = 300 ∧
    σ (symName "rect3" "x") = 400 ∧ σ (symName "rect3" "y") = 300 ∧
    σ (symName "rect3" "w") = 400 ∧ σ (symName "rect3" "h") = 300 ∧
    σ (symName "rect3" "right") = 800 ∧ σ (symName "rect3" "bottom") = 600 := by
  obtain ⟨-, -, -, -, -, -, a1, a2, a3, a4, a5, a6, b1, b2, b3, b4, b5, b6,
    d1, d2, d3, d4, d5, d6⟩ := layout_values σ hσ
  exact ⟨a1, a2, a3, a4, a5, a6, b1, b2, b3, b4, b5, b6, d1, d2, d3, d4, d5, d6⟩

/-- Witness for C1 at the concrete solution `sol0`. -/
theorem layout_resolves_to_documented_values_witness :
    Satisfies sol0 (get_equations (some layout)) ∧
      sol0 (symName "rect1" "w") = 400 ∧ sol0 (symName "rect2" "x") = 400 ∧
      sol0 (symName "rect3" "bottom") = 600 :=
  ⟨sat_sol0, (layout_resolves_to_documented_values sol0 sat_sol0).2.2.1,
    (layout_resolves_to_documented_values sol0 sat_sol0).2.2.2.2.2.2.1,
    (layout_resolves_to_documented_values sol0 sat_sol0).2.2.2.2.2.2.2.2.2.2.2.2.2.2.2.2.2⟩

/-- C2 (amended): for a single-node tree declaring `x`, `y`, `w`, `h` and
`right` as literals, mutually consistent declarations (`right = x + w`) make
the assembled system solvable, so the solve succeeds; inconsistent
declarations make it unsatisfiable, and the solve then fails with
`IndexError` — `linsolve` returns an empty solution set and `main` indexes
into the empty list; the code defines no `ContradictionError`. -/
theorem redundant_w_right_consistency (a b c d e : ℚ) :
    (c = a + b → ∃ σ, Satisfies σ (get_equations (some [boxElem a b c d e]))) ∧
    (c ≠ a + b → MainRaises [boxElem a b c d e] PyExc.indexError) :=
  ⟨fun h => ⟨boxSol a b c d e, box_sat h⟩, fun h => MainRaises.idx (box_unsat h)⟩

/-- Witness for C2 at consistent values `x 0, w 100, right 100` and at
inconsistent values `x 0, w 100, right 150`. -/
theorem redundant_w_right_consistency_witness :
    (∃ σ, Satisfies σ (get_equations (some [boxElem 0 100 100 0 50]))) ∧
      MainRaises [boxElem 0 100 150 0 50] PyExc.indexError :=
  ⟨(redundant_w_right_consistency 0 100 100 0 50).1 (by norm_num),
   (redundant_w_right_consistency 0 100 150 0 50).2 (by norm_num)⟩

/-- C2 counterexample: the single-node tree declaring `x = 0`, `w = 100` and
`right = 150` declares `w` and `right` with mutually inconsistent values, yet
the solve raises `IndexError`, not a `ContradictionError` (no such error
exists in the code). -/
theorem contradiction_error_never_raised :
    (boxElem 0 100 150 0 50).attrs.lookup "w" = some (SymExpr.lit 100) ∧
    (boxElem 0 100 150 0 50).attrs.lookup "right" = some (SymExpr.lit 150) ∧
    (boxElem 0 100 150 0 50).attrs.lookup "x" = some (SymExpr.lit 0) ∧
    (150 : ℚ) ≠ 0 + 100 ∧
    MainRaises [boxElem 0 100 150 0 50] PyExc.indexError ∧
    ¬ MainRaises [boxElem 0 100 150 0 50] PyExc.contradictionError :=
  ⟨rfl, rfl, rfl, by norm_num, MainRaises.idx (box_unsat (by norm_num)),
    fun h => nomatch h⟩

/-- A child referring to `parent.w` under a root whose id is `"root"`, not
`"parent"`. -/
def kidElem : Element :=
  .mk "Rect" "kid"
    [("x", .lit 0), ("y", .lit 0),
     ("w", .div (.ref "parent" "w") (.lit 2)), ("h", .lit 600)]
    [] none

def rootElem : Element :=
  .mk "Rect" "root"
    [("x", .lit 0), ("y", .lit 0), ("w", .lit 800), ("h", .lit 600)]
    [] (some [kidElem])

def rootTree : List Element := [rootElem]

theorem E_kid : get_equations (some [kidElem]) =
    [SymExpr.add (SymExpr.neg (SymExpr.ref "kid" "x")) (SymExpr.lit 0),
     SymExpr.add (SymExpr.neg (SymExpr.ref "kid" "y")) (SymExpr.lit 0),
     SymExpr.add (SymExpr.neg (SymExpr.ref "kid" "w"))
       (SymExpr.div (SymExpr.ref "parent" "w") (SymExpr.lit 2)),
     SymExpr.add (SymExpr.neg (SymExpr.ref "kid" "h")) (SymExpr.lit 600),
     identRight "kid", identBottom "kid"] := by
  rw [get_equations_eq, elemsEqns_cons]
  have h0 : elemsEqns [] = [] := by simp [elemsEqns]
  have hn : get_equations none = [] := by simp [get_equations]
  rw [h0, show kidElem.children = none from rfl, hn]
  simp only [show build_eqn kidElem "x" =
      some (SymExpr.add (SymExpr.neg (SymExpr.ref "kid" "x")) (SymExpr.lit 0)) from rfl,
    show build_eqn kidElem "y" =
      some (SymExpr.add (SymExpr.neg (SymExpr.ref "kid" "y")) (SymExpr.lit 0)) from rfl,
    show build_eqn kidElem "w" = some (SymExpr.add (SymExpr.neg (SymExpr.ref "kid" "w"))
      (SymExpr.div (SymExpr.ref "parent" "w") (SymExpr.lit 2))) from rfl,
    show build_eqn kidElem "h" =
      some (SymExpr.add (SymExpr.neg (SymExpr.ref "kid" "h")) (SymExpr.lit 600)) from rfl,
    show build_eqn kidElem "right" = none from rfl,
    show build_eqn kidElem "bottom" = none from rfl,
    show (Element.id kidElem) = "kid" from rfl,
    List.map_nil, List.append_nil, List.nil_append]
  simp only [List.filterMap_cons, List.filterMap_nil,
    keepTruthy_build "kid" "x" (SymExpr.lit 0) (by decide),
    keepTruthy_build "kid" "y" (SymExpr.lit 0) (by decide),
    keepTruthy_build "kid" "w"
      (SymExpr.div (SymExpr.ref "parent" "w") (SymExpr.lit 2)) (by decide),
    keepTruthy_build "kid" "h" (SymExpr.lit 600) (by decide),
    keepTruthy_identRight, keepTruthy_identBottom, keepTruthy_none]

theorem E_rootTree : get_equations (some rootTree) =
    [SymExpr.add (SymExpr.neg (SymExpr.ref "root" "x")) (SymExpr.lit 0),
     SymExpr.add (SymExpr.neg (SymExpr.ref "root" "y")) (SymExpr.lit 0),
     SymExpr.add (SymExpr.neg (SymExpr.ref "root" "w")) (SymExpr.lit 800),
     SymExpr.add (SymExpr.neg (SymExpr.ref "root" "h")) (SymExpr.lit 600),
     identRight "root", identBottom "root",
     SymExpr.add (SymExpr.neg (SymExpr.ref "kid" "x")) (SymExpr.lit 0),
     SymExpr.add (SymExpr.neg (SymExpr.ref "kid" "y")) (SymExpr.lit 0),
     SymExpr.add (SymExpr.neg (SymExpr.ref "kid" "w"))
       (SymExpr.div (SymExpr.ref "parent" "w") (SymExpr.lit 2)),
     SymExpr.add (SymExpr.neg (SymExpr.ref "kid" "h")) (SymExpr.lit 600),
     identRight "kid", identBottom "kid"] := by
  rw [show rootTree = [rootElem] from rfl, get_equations_eq, elemsEqns_cons]
  have h0 : elemsEqns [] = [] := by simp [elemsEqns]
  rw [h0, show rootElem.children = some [kidElem] from rfl, E_kid]
  simp only [show build_eqn rootElem "x" =
      some (SymExpr.add (SymExpr.neg (SymExpr.ref "root" "x")) (SymExpr.lit 0)) from rfl,
    show build_eqn rootElem "y" =
      some (SymExpr.add (SymExpr.neg (SymExpr.ref "root" "y")) (SymExpr.lit 0)) from rfl,
    show build_eqn rootElem "w" =
      some (SymExpr.add (SymExpr.neg (SymExpr.ref "root" "w")) (SymExpr.lit 800)) from rfl,
    show build_eqn rootElem "h" =
      some (SymExpr.add (SymExpr.neg (SymExpr.ref "root" "h")) (SymExpr.lit 600)) from rfl,
    show build_eqn rootElem "right" = none from rfl,
    show build_eqn rootElem "bottom" = none from rfl,
    show (Element.id rootElem) = "root" from rfl,
    List.append_nil]
  have hall : ∀ x ∈ get_equations (some [kidElem]), sympyNonzero x = true :=
    fun x hx => truthy_of_mem hx
  rw [E_kid] at hall
  simp only [List.filterMap_append, filterMap_keepTruthy_map_some hall]
  simp only [List.filterMap_cons, List.filterMap_nil,
    keepTruthy_build "root" "x" (SymExpr.lit 0) (by decide),
    keepTruthy_build "root" "y" (SymExpr.lit 0) (by decide),
    keepTruthy_build "root" "w" (SymExpr.lit 800) (by decide),
    keepTruthy_build "root" "h" (SymExpr.lit 600) (by decide),
    keepTruthy_identRight, keepTruthy_identBottom, keepTruthy_none]
  simp

/-- A satisfying assignment of the `rootTree` system in which the child's `w`
is 17 — possible because the code ties the child's `w` to the free symbol
`parent__w`, not to the actual ancestor `root`. -/
def solR : String → ℚ := fun s =>
  if s = "root__x" then 0 else if s = "root__y" then 0
  else if s = "root__w" then 800 else if s = "root__h" then 600
  else if s = "root__right" then 800 else if s = "root__bottom" then 600
  else if s = "kid__x" then 0 else if s = "kid__y" then 0
  else if s = "kid__w" then 17 else if s = "kid__h" then 600
  else if s = "kid__right" then 17 else if s = "kid__bottom" then 600
  else if s = "parent__w" then 34 else 0

/-- C4 counterexample: under a root with id `"root"` and `w = 800`, the child
declaring `w = parent.w / 2` is not forced to `400`: the system admits a
solution with the child's `w = 17` while the root's `w = 800`, so the
reference does not resolve to the nearest ancestor by tree position. -/
theorem parent_alias_not_positional :
    Satisfies solR (get_equations (some rootTree)) ∧
    solR (symName "kid" "w") = 17 ∧ solR (symName "root" "w") = 800 ∧
    (17 : ℚ) ≠ 800 / 2 := by
  refine ⟨?_, by simp [solR, symName], by simp [solR, symName], by norm_num⟩
  rw [E_rootTree]
  intro x hx
  simp only [List.mem_cons, List.not_mem_nil, or_false] at hx
  rcases hx with rfl | rfl | rfl | rfl | rfl | rfl | rfl | rfl | rfl | rfl | rfl | rfl <;>
    simp [SymExpr.eval, identRight, identBottom, solR, symName] <;> norm_num

/-- C4 (amended): `parent` is resolved purely textually — the equation built
for the child's `w` constrains the symbol `parent__w`, the attribute of a node
whose id is the literal string `"parent"`, not of the positional ancestor; in
the embedded layout the root's id happens to be `"parent"`, so there
`parent.w / 2` under the `w = 800` root does resolve to `400`. -/
theorem parent_alias_resolves_by_name (σ : String → ℚ)
    (hσ : Satisfies σ (get_equations (some layout))) :
    build_eqn kidElem "w" =
      some (SymExpr.add (SymExpr.neg (SymExpr.ref "kid" "w"))
        (SymExpr.div (SymExpr.ref "parent" "w") (SymExpr.lit 2))) ∧
    (SymExpr.div (SymExpr.ref "parent" "w") (SymExpr.lit 2)).refNames =
      [symName "parent" "w"] ∧
    σ (symName "parent" "w") = 800 ∧ σ (symName "rect1" "w") = 400 := by
  refine ⟨rfl, rfl, ?_, ?_⟩
  · exact (layout_values σ hσ).2.2.1
  · exact (layout_values σ hσ).2.2.2.2.2.2.2.2.1

/-- Witness for C4's amended statement at the concrete solution `sol0`. -/
theorem parent_alias_resolves_by_name_witness :
    Satisfies sol0 (get_equations (some layout)) ∧ sol0 (symName "rect1" "w") = 400 :=
  ⟨sat_sol0, (parent_alias_resolves_by_name sol0 sat_sol0).2.2.2⟩

theorem allElems_layout : allElems layout = [parentElem, rect1, rect2, rect3] := by
  rw [show layout = [parentElem] from rfl, allElems_cons,
    show parentElem.children = some [rect1, rect2, rect3] from rfl, allElemsOpt_some,
    allElems_cons, show rect1.children = none from rfl,
    allElems_cons, show rect2.children = none from rfl,
    allElems_cons, show rect3.children = none from rfl]
  simp [allElems, allElemsOpt]

/-- C5: for every tree, the two identity equations of every node are
unconditionally part of the assembled system, and every assignment satisfying
the system (any solution the solve can return) obeys `right = x + w` and
`bottom = y + h` exactly at every node. -/
theorem identity_closure (es : List Element) (σ : String → ℚ)
    (hσ : Satisfies σ (get_equations (some es))) (n : Element)
    (hn : n ∈ allElems es) :
    identRight n.id ∈ get_equations (some es) ∧
    identBottom n.id ∈ get_equations (some es) ∧
    σ (symName n.id "right") = σ (symName n.id "x") + σ (symName n.id "w") ∧
    σ (symName n.id "bottom") = σ (symName n.id "y") + σ (symName n.id "h") := by
  obtain ⟨hr, hb⟩ := ident_mem_list es n hn
  have h1 := hσ _ hr
  have h2 := hσ _ hb
  simp only [SymExpr.eval, identRight, identBottom] at h1 h2
  exact ⟨hr, hb, by linarith, by linarith⟩

/-- Witness for C5 at the embedded layout, its solution `sol0` and the node
`rect2` (which declares neither `w` nor `bottom`, yet obeys both identities). -/
theorem identity_closure_witness :
    Satisfies sol0 (get_equations (some layout)) ∧ rect2 ∈ allElems layout ∧
      sol0 (symName rect2.id "right") =
        sol0 (symName rect2.id "x") + sol0 (symName rect2.id "w") ∧
      sol0 (symName rect2.id "bottom") =
        sol0 (symName rect2.id "y") + sol0 (symName rect2.id "h") :=
  ⟨sat_sol0, by rw [allElems_layout]; simp,
    (identity_closure layout sol0 sat_sol0 rect2 (by rw [allElems_layout]; simp)).2.2.1,
    (identity_closure layout sol0 sat_sol0 rect2 (by rw [allElems_layout]; simp)).2.2.2⟩

/-- The free symbols of a sympy expression (`eqn.atoms(Symbol)`): sympy's
automatic simplification collects a linear expression, so its atoms are the
support of the collected form; a non-linear expression keeps its syntactic
references. -/
def SymExpr.atoms (e : SymExpr) : List String :=
  match SymExpr.lin e with
  | some l => l.terms.map Prod.fst
  | none => e.refNames

/-- The symbol set `main` collects: the union of the atoms of all equations. -/
def symbolsOf (eqns : List SymExpr) : List String :=
  (eqns.flatMap SymExpr.atoms).dedup

theorem addTerm_names {n : String} {q : ℚ} {ts : List (String × ℚ)} {s : String}
    (hs : s ∈ (addTerm n q ts).map Prod.fst) : s = n ∨ s ∈ ts.map Prod.fst := by
  induction ts with
  | nil =>
    by_cases h : q = 0 <;> simp [addTerm, h] at hs
    exact Or.inl hs
  | cons t rest ih =>
    obtain ⟨m, c⟩ := t
    by_cases h : n = m
    · subst h
      by_cases h2 : q + c = 0
      · simp only [addTerm, if_pos rfl, if_pos h2] at hs
        exact Or.inr (by simp; exact Or.inr (by simpa using hs))
      · simp only [addTerm, if_pos rfl, if_neg h2] at hs
        simp at hs
        rcases hs with h3 | h3
        · exact Or.inl h3
        · exact Or.inr (by simp [h3])
    · simp only [addTerm, if_neg h] at hs
      simp at hs
      rcases hs with h3 | h3
      · exact Or.inr (by simp [h3])
      · rcases ih (by simpa using h3) with h4 | h4
        · exact Or.inl h4
        · exact Or.inr (by simp at h4 ⊢; exact Or.inr h4)

theorem foldl_addTerm_names {l : List (String × ℚ)} :
    ∀ {acc : List (String × ℚ)} {s : String},
      s ∈ (l.foldl (fun acc t => addTerm t.1 t.2 acc) acc).map Prod.fst →
      s ∈ l.map Prod.fst ∨ s ∈ acc.map Prod.fst := by
  induction l with
  | nil => intro acc s hs; exact Or.inr hs
  | cons t rest ih =>
    intro acc s hs
    simp only [List.foldl_cons] at hs
    rcases ih hs with h | h
    · exact Or.inl (by simp at h ⊢; exact Or.inr h)
    · rcases addTerm_names h with h2 | h2
      · exact Or.inl (by simp [h2])
      · exact Or.inr h2

theorem linScale_names {q : ℚ} {l : Lin} {s : String}
    (hs : s ∈ (linScale q l).terms.map Prod.fst) : s ∈ l.terms.map Prod.fst := by
  by_cases h : q = 0
  · simp [linScale, h] at hs
  · simp only [linScale, if_neg h] at hs
    simpa [List.map_map, Function.comp] using hs

/-- The support of the collected form only contains syntactically referenced
symbols. -/
theorem lin_names_subset : ∀ (e : SymExpr) (l : Lin), SymExpr.lin e = some l →
    ∀ s ∈ l.terms.map Prod.fst, s ∈ e.refNames := by
  intro e
  induction e with
  | lit q => intro l hl s hs; simp [SymExpr.lin] at hl; subst hl; simp at hs
  | ref n a =>
    intro l hl s hs
    simp [SymExpr.lin] at hl; subst hl
    simp at hs
    simp [SymExpr.refNames, hs]
  | neg e ih =>
    intro l hl s hs
    simp only [SymExpr.lin] at hl
    cases he : SymExpr.lin e with
    | none => rw [he] at hl; simp at hl
    | some le =>
      rw [he] at hl; simp at hl; subst hl
      exact ih le he s (linScale_names hs)
  | add a b iha ihb =>
    intro l hl s hs
    simp only [SymExpr.lin] at hl
    cases ha : SymExpr.lin a with
    | none => rw [ha] at hl; simp at hl
    | some la =>
      cases hb : SymExpr.lin b with
      | none => rw [ha, hb] at hl; simp at hl
      | some lb =>
        rw [ha, hb] at hl; simp at hl; subst hl
        simp only [linAdd] at hs
        rcases foldl_addTerm_names hs with h | h
        · simp [SymExpr.refNames]; exact Or.inr (ihb lb hb s h)
        · simp [SymExpr.refNames]; exact Or.inl (iha la ha s h)
  | mul a b iha ihb =>
    intro l hl s hs
    simp only [SymExpr.lin] at hl
    cases ha : SymExpr.lin a with
    | none => rw [ha] at hl; simp at hl
    | some la =>
      cases hb : SymExpr.lin b with
      | none =>
        rw [ha, hb] at hl
        obtain ⟨ta, ca⟩ := la
        cases ta <;> simp at hl
      | some lb =>
        rw [ha, hb] at hl
        obtain ⟨ta, ca⟩ := la
        obtain ⟨tb, cb⟩ := lb
        cases ta with
        | nil =>
          simp at hl; subst hl
          simp [SymExpr.refNames]
          exact Or.inr (ihb ⟨tb, cb⟩ hb s (linScale_names hs))
        | cons t ta' =>
          cases tb with
          | nil =>
            simp at hl; subst hl
            simp [SymExpr.refNames]
            exact Or.inl (iha ⟨t :: ta', ca⟩ ha s (linScale_names hs))
          | cons u tb' => simp at hl
  | div a b iha ihb =>
    intro l hl s hs
    simp only [SymExpr.lin] at hl
    cases ha : SymExpr.lin a with
    | none =>
      rw [ha] at hl
      cases hb : SymExpr.lin b with
      | none => rw [hb] at hl; simp at hl
      | some lb =>
        rw [hb] at hl
        obtain ⟨tb, cb⟩ := lb
        cases tb <;> simp at hl
    | some la =>
      cases hb : SymExpr.lin b with
      | none => rw [ha, hb] at hl; simp at hl
      | some lb =>
        rw [ha, hb] at hl
        obtain ⟨tb, cb⟩ := lb
        cases tb with
        | nil =>
          by_cases hc : cb = 0
          · simp [hc] at hl
          · simp [hc] at hl; subst hl
            simp [SymExpr.refNames]
            exact Or.inl (iha la ha s (linScale_names hs))
        | cons u tb' => simp at hl

theorem atoms_subset_refNames (e : SymExpr) (s : String) (hs : s ∈ e.atoms) :
    s ∈ e.refNames := by
  unfold SymExpr.atoms at hs
  cases hl : SymExpr.lin e with
  | none => rw [hl] at hs; exact hs
  | some l => rw [hl] at hs; exact lin_names_subset e l hl s hs

/-- C6: the solve is a deterministic function of the input tree.  The pipeline
itself is pure, and the assembled system of the embedded layout pins every
collected symbol: any two satisfying assignments (any two solutions of two
runs) agree on every symbol `main` collects, so solving the same tree twice
yields exactly the same variable-to-value mapping, independent even of the
iteration order of the symbol set. -/
theorem solve_deterministic (σ σ' : String → ℚ)
    (h : Satisfies σ (get_equations (some layout)))
    (h' : Satisfies σ' (get_equations (some layout))) :
    ∀ s ∈ symbolsOf (get_equations (some layout)), σ s = σ' s := by
  intro s hs
  simp only [symbolsOf, List.mem_dedup, List.mem_flatMap] at hs
  obtain ⟨eqn, heqn, hat⟩ := hs
  have href : s ∈ eqn.refNames := atoms_subset_refNames eqn s hat
  obtain ⟨v1, v2, v3, v4, v5, v6, v7, v8, v9, v10, v11, v12, v13, v14, v15, v16,
    v17, v18, v19, v20, v21, v22, v23, v24⟩ := layout_values σ h
  obtain ⟨w1, w2, w3, w4, w5, w6, w7, w8, w9, w10, w11, w12, w13, w14, w15, w16,
    w17, w18, w19, w20, w21, w22, w23, w24⟩ := layout_values σ' h'
  rw [E_layout] at heqn
  simp only [layoutEqns, List.mem_cons, List.not_mem_nil, or_false] at heqn
  rcases heqn with rfl | rfl | rfl | rfl | rfl | rfl | rfl | rfl | rfl | rfl | rfl | rfl |
    rfl | rfl | rfl | rfl | rfl | rfl | rfl | rfl | rfl | rfl | rfl | rfl <;>
    simp only [SymExpr.refNames, identRight, identBottom, List.cons_append,
      List.nil_append, List.mem_cons, List.not_mem_nil, or_false] at href <;>
    (first
      | (rcases href with rfl | rfl | rfl; all_goals simp_all)
      | (rcases href with rfl | rfl; all_goals simp_all)
      | (subst href; simp_all))

/-- Witness for C6: two runs at the concrete solution `sol0` agree on the
collected symbol of the root's width, which is in the collected symbol set. -/
theorem solve_deterministic_witness :
    Satisfies sol0 (get_equations (some layout)) ∧
      sol0 (symName "parent" "w") = sol0 (symName "parent" "w") :=
  ⟨sat_sol0, solve_deterministic sol0 sol0 sat_sol0 sat_sol0 (symName "parent" "w") (by
    simp only [symbolsOf, List.mem_dedup, List.mem_flatMap]
    refine ⟨identRight "parent", ?_, ?_⟩
    · rw [E_layout]; simp [layoutEqns]
    · simp [SymExpr.atoms, SymExpr.lin, identRight, linAdd, addTerm, linScale, symName])⟩

mutual

/-- The traversal of `get_equations`, instrumented to also return the element
tree exactly as it was read: the loop body re-emits every node it consulted
(`e['id']`, the six attribute lookups, `e.get('children')`), so a mutation of
the tree during equation building would surface as a difference in the second
component. -/
def elemsEqnsFr : List Element → List (Option SymExpr) × List Element
  | [] => ([], [])
  | .mk t i attrs c ch :: rest =>
    let pc := get_equationsFr ch
    let pr := elemsEqnsFr rest
    (([build_eqn (.mk t i attrs c ch) "x", build_eqn (.mk t i attrs c ch) "y",
       build_eqn (.mk t i attrs c ch) "w", build_eqn (.mk t i attrs c ch) "h",
       build_eqn (.mk t i attrs c ch) "right", build_eqn (.mk t i attrs c ch) "bottom",
       some (identRight i), some (identBottom i)]
      ++ pc.1.map some) ++ pr.1,
     Element.mk t i attrs c pc.2 :: pr.2)

def get_equationsFr : Option (List Element) → List SymExpr × Option (List Element)
  | none => ([], none)
  | some [] => ([], some [])
  | some es => ((elemsEqnsFr es).1.filterMap keepTruthy, some (elemsEqnsFr es).2)

end

mutual

theorem elemsEqnsFr_eq (es : List Element) : elemsEqnsFr es = (elemsEqns es, es) :=
  match es with
  | [] => by simp [elemsEqnsFr, elemsEqns]
  | .mk t i attrs c ch :: rest => by
    have hc := get_equationsFr_eq ch
    have hr := elemsEqnsFr_eq rest
    simp [elemsEqnsFr, hc, hr, elemsEqns]

theorem get_equationsFr_eq (o : Option (List Element)) :
    get_equationsFr o = (get_equations o, o) :=
  match o with
  | none => by simp [get_equationsFr, get_equations]
  | some [] => by simp [get_equationsFr, get_equations]
  | some (e :: rest) => by
    have h := elemsEqnsFr_eq (e :: rest)
    simp only [get_equationsFr, h]
    rw [get_equations_eq]

end

/-- C9: equation building (and the solve, which consumes only the produced
equation list — the tree is not even passed to `linsolve`, and the solution is
a separate mapping from symbol names to values) leaves the input element tree
unchanged: the instrumented traversal returns every node — type, id, attribute
expressions, color and children — exactly as it found it. -/
theorem solver_leaves_tree_unchanged (o : Option (List Element)) :
    get_equationsFr o = (get_equations o, o) :=
  get_equationsFr_eq o

/-- Per-element count of declared attributes among the six probed keys. -/
def declCountElem (e : Element) : Nat :=
  probedKeys.countP (fun k => (e.attrs.lookup k).isSome)

def nodeCount (es : List Element) : Nat := (allElems es).length

def declTotal (es : List Element) : Nat := ((allElems es).map declCountElem).sum

theorem keepTruthy_some_of_truthy {ex : SymExpr} (h : sympyNonzero ex = true) :
    keepTruthy (some ex) = some ex := by
  simp [keepTruthy, h]

theorem lookup_mem {k : String} {v : SymExpr} : ∀ {l : List (String × SymExpr)},
    l.lookup k = some v → (k, v) ∈ l := by
  intro l
  induction l with
  | nil => simp [List.lookup]
  | cons p rest ih =>
    obtain ⟨a, b⟩ := p
    intro h
    simp only [List.lookup] at h
    split at h
    · next heq =>
      cases h
      have : k = a := by simpa using heq
      subst this
      exact List.mem_cons_self _ _
    · exact List.mem_cons_of_mem _ (ih h)

/-- A declared-attribute equation is non-zero as soon as its right-hand side
does not reference the declared attribute itself. -/
theorem build_eqn_truthy (e : Element) (k : String) (ex : SymExpr)
    (hb : build_eqn e k = some ex)
    (h : ∀ p ∈ e.attrs, symName e.id k ∉ p.2.refNames) : sympyNonzero ex = true := by
  unfold build_eqn at hb
  cases hl : e.attrs.lookup k with
  | none => rw [hl] at hb; simp at hb
  | some v =>
    rw [hl] at hb
    simp at hb
    subst hb
    exact truthy_build e.id k v (h (k, v) (lookup_mem hl))

/-- Length of the filtered eight per-element slots: the two identities always
survive and each declared attribute contributes exactly one equation. -/
theorem slots_count (e : Element)
    (h : ∀ k ∈ probedKeys, ∀ ex, build_eqn e k = some ex → sympyNonzero ex = true) :
    (([build_eqn e "x", build_eqn e "y", build_eqn e "w", build_eqn e "h",
       build_eqn e "right", build_eqn e "bottom",
       some (identRight e.id), some (identBottom e.id)]).filterMap keepTruthy).length
      = 2 + declCountElem e := by
  have hkt : ∀ k ∈ probedKeys, keepTruthy (build_eqn e k) = build_eqn e k := by
    intro k hk
    cases hb : build_eqn e k with
    | none => rfl
    | some ex => exact keepTruthy_some_of_truthy (h k hk ex hb)
  have k1 := hkt "x" (by simp [probedKeys])
  have k2 := hkt "y" (by simp [probedKeys])
  have k3 := hkt "w" (by simp [probedKeys])
  have k4 := hkt "h" (by simp [probedKeys])
  have k5 := hkt "right" (by simp [probedKeys])
  have k6 := hkt "bottom" (by simp [probedKeys])
  have hb : ∀ k, build_eqn e k = (e.attrs.lookup k).map
      (fun ex => SymExpr.add (SymExpr.neg (SymExpr.ref e.id k)) ex) := by
    intro k
    unfold build_eqn
    cases e.attrs.lookup k <;> simp
  rcases hx : e.attrs.lookup "x" with _ | ex1 <;>
    rcases hy : e.attrs.lookup "y" with _ | ex2 <;>
    rcases hw : e.attrs.lookup "w" with _ | ex3 <;>
    rcases hh : e.attrs.lookup "h" with _ | ex4 <;>
    rcases hr : e.attrs.lookup "right" with _ | ex5 <;>
    rcases hbt : e.attrs.lookup "bottom" with _ | ex6 <;>
    simp only [hb, hx, hy, hw, hh, hr, hbt, Option.map_some', Option.map_none'] at k1 k2 k3 k4 k5 k6 ⊢ <;>
    simp only [List.filterMap_cons, List.filterMap_nil, k1, k2, k3, k4, k5, k6,
      keepTruthy_none, keepTruthy_identRight, keepTruthy_identBottom] <;>
    simp [declCountElem, probedKeys, List.countP_cons, hx, hy, hw, hh, hr, hbt]

mutual

theorem equation_count_list (es : List Element)
    (h : ∀ e ∈ allElems es, ∀ k ∈ probedKeys, ∀ ex, build_eqn e k = some ex →
      sympyNonzero ex = true) :
    (get_equations (some es)).length =
      2 * (allElems es).length + ((allElems es).map declCountElem).sum :=
  match es with
  | [] => by
    rw [get_equations_eq]
    simp [elemsEqns, allElems]
  | .mk t i attrs c ch :: rest => by
    rw [get_equations_eq, elemsEqns_cons,
      show Element.children (Element.mk t i attrs c ch) = ch from rfl,
      List.filterMap_append, List.filterMap_append]
    have hmem : Element.mk t i attrs c ch ∈ allElems (Element.mk t i attrs c ch :: rest) := by
      rw [allElems_cons]; exact List.mem_cons_self _ _
    have hch : ∀ e ∈ allElemsOpt ch,
        ∀ k ∈ probedKeys, ∀ ex, build_eqn e k = some ex → sympyNonzero ex = true := by
      intro e he
      refine h e ?_
      rw [allElems_cons]
      exact List.mem_cons_of_mem _ (List.mem_append.mpr (Or.inl he))
    have hrest : ∀ e ∈ allElems rest, ∀ k ∈ probedKeys, ∀ ex, build_eqn e k = some ex →
        sympyNonzero ex = true := by
      intro e he
      refine h e ?_
      rw [allElems_cons]
      exact List.mem_cons_of_mem _ (List.mem_append.mpr (Or.inr he))
    have e1 := slots_count (.mk t i attrs c ch) (h _ hmem)
    have e2 : ((get_equations ch).map some).filterMap keepTruthy = get_equations ch :=
      filterMap_keepTruthy_map_some (fun x hx => truthy_of_mem hx)
    have e3 : (elemsEqns rest).filterMap keepTruthy = get_equations (some rest) :=
      (get_equations_eq rest).symm
    have ih1 := equation_count_opt ch hch
    have ih2 := equation_count_list rest hrest
    rw [List.length_append, List.length_append, e1, e2, e3, ih1, ih2, allElems_cons,
      show Element.children (Element.mk t i attrs c ch) = ch from rfl]
    simp only [List.length_cons, List.length_append, List.map_cons, List.map_append,
      List.sum_cons, List.sum_append]
    omega

theorem equation_count_opt (o : Option (List Element))
    (h : ∀ e ∈ allElemsOpt o, ∀ k ∈ probedKeys, ∀ ex, build_eqn e k = some ex →
      sympyNonzero ex = true) :
    (get_equations o).length =
      2 * (allElemsOpt o).length + ((allElemsOpt o).map declCountElem).sum :=
  match o, h with
  | none, _ => by simp [get_equations, allElemsOpt]
  | some es, h => by
    rw [allElemsOpt_some]
    exact equation_count_list es (by rw [allElemsOpt_some] at h; exact h)

end

/-- C10: when no declared-attribute equation simplifies to zero, the assembled
system has exactly `2 × node_count + D` equations, `D` the number of declared
attributes among the six geometric keys over all nodes (keys outside that set
occupy dedicated fields and are never probed, so they contribute nothing; a
missing `children` entry behaves as `None`); `get_equations` of `None` and of
the empty element list is the empty list. -/
theorem equation_count :
    (∀ es : List Element,
      (∀ e ∈ allElems es, ∀ k ∈ probedKeys, ∀ ex, build_eqn e k = some ex →
        sympyNonzero ex = true) →
      (get_equations (some es)).length = 2 * nodeCount es + declTotal es) ∧
    get_equations none = [] ∧ get_equations (some []) = [] :=
  ⟨fun es h => equation_count_list es h, by simp [get_equations], by simp [get_equations]⟩

/-- Witness for C10 at the embedded layout: 24 equations, matching
`2 × 4 + 16`. -/
theorem equation_count_witness :
    (get_equations (some layout)).length = 2 * nodeCount layout + declTotal layout ∧
      (get_equations (some layout)).length = 24 :=
  ⟨equation_count.1 layout (by
    intro e he k hk ex hb
    refine build_eqn_truthy e k ex hb ?_
    intro p hp
    rw [allElems_layout] at he
    simp only [List.mem_cons, List.not_mem_nil, or_false] at he
    rcases he with rfl | rfl | rfl | rfl <;>
      simp only [Element.attrs, parentElem, rect1, rect2, rect3, List.mem_cons,
        List.not_mem_nil, or_false] at hp <;>
      rcases hp with rfl | rfl | rfl | rfl <;>
      simp only [probedKeys, List.mem_cons, List.not_mem_nil, or_false] at hk <;>
      rcases hk with rfl | rfl | rfl | rfl | rfl | rfl <;> decide),
   by rw [E_layout]; rfl⟩

theorem string_data_append (s t : String) : (s ++ t).data = s.data ++ t.data := rfl

theorem string_data_inj {s t : String} (h : s.data = t.data) : s = t := by
  cases s; cases t; exact congrArg String.mk h

theorem probedKeys_last_inj : ∀ a ∈ probedKeys, ∀ b ∈ probedKeys,
    a.data.getLast? = b.data.getLast? → a = b := by decide

theorem probedKeys_data_ne_nil : ∀ a ∈ probedKeys, a.data ≠ [] := by decide

/-- The symbol-name map is injective on (node id, probed attribute) pairs:
the six attribute names end in pairwise distinct characters, so none is a
suffix of another. -/
theorem symName_inj {i j a b : String} (ha : a ∈ probedKeys) (hb : b ∈ probedKeys)
    (h : symName i a = symName j b) : i = j ∧ a = b := by
  have hd := congrArg String.data h
  simp only [symName, string_data_append] at hd
  have hab : a = b := by
    apply probedKeys_last_inj a ha b hb
    have h1 := List.getLast?_append_of_ne_nil (i.data ++ "__".data) (probedKeys_data_ne_nil a ha)
    have h2 := List.getLast?_append_of_ne_nil (j.data ++ "__".data) (probedKeys_data_ne_nil b hb)
    rw [← h1, ← h2, hd]
  subst hab
  refine ⟨?_, rfl⟩
  have hij := List.append_cancel_right hd
  exact string_data_inj (List.append_cancel_right hij)

theorem symName_ne {i : String} {a b : String} (ha : a ∈ probedKeys)
    (hb : b ∈ probedKeys) (hab : a ≠ b) : symName i a ≠ symName i b :=
  fun h => hab (symName_inj ha hb h).2

theorem lin_identRight (i : String) : SymExpr.lin (identRight i) =
    some ⟨[(symName i "right", -1), (symName i "x", 1), (symName i "w", 1)], 0⟩ := by
  have h1 : symName i "x" ≠ symName i "right" :=
    symName_ne (by simp [probedKeys]) (by simp [probedKeys]) (by decide)
  have h2 : symName i "w" ≠ symName i "right" :=
    symName_ne (by simp [probedKeys]) (by simp [probedKeys]) (by decide)
  have h3 : symName i "w" ≠ symName i "x" :=
    symName_ne (by simp [probedKeys]) (by simp [probedKeys]) (by decide)
  norm_num [identRight, SymExpr.lin, linAdd, linScale, addTerm, h1, h2, h3]

theorem lin_identBottom (i : String) : SymExpr.lin (identBottom i) =
    some ⟨[(symName i "bottom", -1), (symName i "y", 1), (symName i "h", 1)], 0⟩ := by
  have h1 : symName i "y" ≠ symName i "bottom" :=
    symName_ne (by simp [probedKeys]) (by simp [probedKeys]) (by decide)
  have h2 : symName i "h" ≠ symName i "bottom" :=
    symName_ne (by simp [probedKeys]) (by simp [probedKeys]) (by decide)
  have h3 : symName i "h" ≠ symName i "y" :=
    symName_ne (by simp [probedKeys]) (by simp [probedKeys]) (by decide)
  norm_num [identBottom, SymExpr.lin, linAdd, linScale, addTerm, h1, h2, h3]

theorem atoms_identRight (i : String) : (identRight i).atoms =
    [symName i "right", symName i "x", symName i "w"] := by
  simp [SymExpr.atoms, lin_identRight i]

theorem atoms_identBottom (i : String) : (identBottom i).atoms =
    [symName i "bottom", symName i "y", symName i "h"] := by
  simp [SymExpr.atoms, lin_identBottom i]

/-- The six symbols of one node. -/
def sixSyms (e : Element) : List String := probedKeys.map (symName e.id)

/-- All six symbols of every node of the tree. -/
def treeSyms (es : List Element) : List String := (allElems es).flatMap sixSyms

theorem flatMap_sixSyms_nodup : ∀ (l : List Element), (l.map Element.id).Nodup →
    (l.flatMap sixSyms).Nodup := by
  intro l
  induction l with
  | nil => intro _; simp
  | cons e rest ih =>
    intro h
    rw [List.map_cons, List.nodup_cons] at h
    obtain ⟨hne, hrest⟩ := h
    rw [List.flatMap_cons, List.nodup_append]
    refine ⟨?_, ih hrest, ?_⟩
    · refine List.Nodup.map_on ?_ (by decide)
      intro a ha b hb hab
      exact (symName_inj ha hb hab).2
    · intro s hs1 hs2
      obtain ⟨a, ha, rfl⟩ := List.mem_map.mp hs1
      obtain ⟨e2, he2, hs3⟩ := List.mem_flatMap.mp hs2
      obtain ⟨b, hb, heq⟩ := List.mem_map.mp hs3
      have hid := (symName_inj hb ha heq).1
      exact hne (hid ▸ List.mem_map_of_mem Element.id he2)

/-- Validity of references (the spec's invariant for well-formed trees): every
dotted reference names an existing node id and one of the six attributes. -/
def ValidRefs (es : List Element) : Prop :=
  ∀ e ∈ allElems es, ∀ p ∈ e.attrs, ∀ r ∈ p.2.refPairs,
    r.2 ∈ probedKeys ∧ r.1 ∈ idsOf es

theorem refNames_eq_map_refPairs : ∀ e : SymExpr,
    e.refNames = e.refPairs.map (fun p => symName p.1 p.2) := by
  intro e
  induction e <;> simp [SymExpr.refNames, SymExpr.refPairs, *]

theorem symbols_sub (es : List Element) (hvalid : ValidRefs es) :
    ∀ s ∈ (get_equations (some es)).flatMap SymExpr.atoms, s ∈ treeSyms es := by
  intro s hs
  obtain ⟨eqn, heqn, hat⟩ := List.mem_flatMap.mp hs
  have href := atoms_subset_refNames eqn s hat
  obtain ⟨e, he, hP⟩ := mem_cases_list es eqn heqn
  rcases hP with ⟨k, hk, hb⟩ | rfl | rfl
  · unfold build_eqn at hb
    cases hl : e.attrs.lookup k with
    | none => rw [hl] at hb; simp at hb
    | some v =>
      rw [hl] at hb
      simp at hb
      subst hb
      simp only [SymExpr.refNames, List.singleton_append, List.mem_cons] at href
      rcases href with rfl | href
      · exact List.mem_flatMap.mpr ⟨e, he, List.mem_map_of_mem _ hk⟩
      · rw [refNames_eq_map_refPairs] at href
        obtain ⟨p, hp, rfl⟩ := List.mem_map.mp href
        obtain ⟨hp2, hp1⟩ := hvalid e he (k, v) (lookup_mem hl) p hp
        obtain ⟨m, hm, hmid⟩ := List.mem_map.mp hp1
        exact List.mem_flatMap.mpr ⟨m, hm, hmid ▸ List.mem_map_of_mem _ hp2⟩
  · rw [show (identRight e.id).refNames =
        [symName e.id "right", symName e.id "x", symName e.id "w"] from rfl] at href
    simp only [List.mem_cons, List.not_mem_nil, or_false] at href
    rcases href with rfl | rfl | rfl <;>
      exact List.mem_flatMap.mpr ⟨e, he, List.mem_map_of_mem _ (by simp [probedKeys])⟩
  · rw [show (identBottom e.id).refNames =
        [symName e.id "bottom", symName e.id "y", symName e.id "h"] from rfl] at href
    simp only [List.mem_cons, List.not_mem_nil, or_false] at href
    rcases href with rfl | rfl | rfl <;>
      exact List.mem_flatMap.mpr ⟨e, he, List.mem_map_of_mem _ (by simp [probedKeys])⟩

theorem treeSyms_sub (es : List Element) :
    ∀ s ∈ treeSyms es, s ∈ (get_equations (some es)).flatMap SymExpr.atoms := by
  intro s hs
  obtain ⟨e, he, hs2⟩ := List.mem_flatMap.mp hs
  obtain ⟨k, hk, rfl⟩ := List.mem_map.mp hs2
  obtain ⟨hr, hb⟩ := ident_mem_list es e he
  simp only [probedKeys, List.mem_cons, List.not_mem_nil, or_false] at hk
  rcases hk with rfl | rfl | rfl | rfl | rfl | rfl
  · exact List.mem_flatMap.mpr ⟨identRight e.id, hr, by rw [atoms_identRight]; simp⟩
  · exact List.mem_flatMap.mpr ⟨identBottom e.id, hb, by rw [atoms_identBottom]; simp⟩
  · exact List.mem_flatMap.mpr ⟨identRight e.id, hr, by rw [atoms_identRight]; simp⟩
  · exact List.mem_flatMap.mpr ⟨identBottom e.id, hb, by rw [atoms_identBottom]; simp⟩
  · exact List.mem_flatMap.mpr ⟨identRight e.id, hr, by rw [atoms_identRight]; simp⟩
  · exact List.mem_flatMap.mpr ⟨identBottom e.id, hb, by rw [atoms_identBottom]; simp⟩

theorem sum_const_six : ∀ (l : List Element), (l.map (fun _ => 6)).sum = 6 * l.length := by
  intro l
  induction l with
  | nil => simp
  | cons e rest ih => simp [ih]; omega

/-- C7: for every tree with unique node ids and valid attribute references,
the symbol set `main` collects from the assembled equations has exactly
`6 × node_count` elements: all six attributes of every node occur (the two
identity equations mention all six), and nothing else does. -/
theorem collected_symbols_count (es : List Element)
    (hnodup : (idsOf es).Nodup) (hvalid : ValidRefs es) :
    (symbolsOf (get_equations (some es))).length = 6 * nodeCount es := by
  have hnd : (treeSyms es).Nodup := flatMap_sixSyms_nodup (allElems es) hnodup
  have hperm : ((get_equations (some es)).flatMap SymExpr.atoms).dedup.Perm (treeSyms es) := by
    rw [List.perm_ext_iff_of_nodup (List.nodup_dedup _) hnd]
    intro a
    rw [List.mem_dedup]
    exact ⟨fun h => symbols_sub es hvalid a h, fun h => treeSyms_sub es a h⟩
  show ((get_equations (some es)).flatMap SymExpr.atoms).dedup.length = _
  rw [hperm.length_eq]
  unfold treeSyms
  rw [List.length_flatMap]
  have hmap : (allElems es).map (List.length ∘ sixSyms) = (allElems es).map (fun _ => 6) :=
    List.map_congr_left (fun e _ => by simp [sixSyms, probedKeys])
  rw [hmap]
  exact sum_const_six _

theorem ids_layout : idsOf layout = ["parent", "rect1", "rect2", "rect3"] := by
  unfold idsOf
  rw [allElems_layout]
  rfl

/-- Witness for C7 at the embedded layout: 24 collected symbols for 4 nodes. -/
theorem collected_symbols_count_witness :
    (symbolsOf (get_equations (some layout))).length = 6 * nodeCount layout ∧
      6 * nodeCount layout = 24 :=
  ⟨collected_symbols_count layout
    (by rw [ids_layout]; decide)
    (by
      intro e he p hp r hr
      rw [ids_layout]
      rw [allElems_layout] at he
      simp only [List.mem_cons, List.not_mem_nil, or_false] at he
      rcases he with rfl | rfl | rfl | rfl <;>
        simp only [Element.attrs, parentElem, rect1, rect2, rect3, List.mem_cons,
          List.not_mem_nil, or_false] at hp <;>
        rcases hp with rfl | rfl | rfl | rfl <;>
        simp only [SymExpr.refPairs, List.cons_append, List.nil_append, List.append_nil,
          List.mem_cons, List.not_mem_nil, or_false] at hr <;>
        (subst hr; exact ⟨by decide, by decide⟩)),
   by
    have h : nodeCount layout = 4 := by unfold nodeCount; rw [allElems_layout]; rfl
    rw [h]⟩

theorem id_unique (es : List Element) (hnodup : (idsOf es).Nodup)
    {e n : Element} (he : e ∈ allElems es) (hn : n ∈ allElems es)
    (hid : e.id = n.id) : e = n :=
  List.inj_on_of_nodup_map hnodup he hn hid

/-- Bump a node's `w` and `right` by one, leaving everything else unchanged. -/
def bumpWR (i : String) (σ : String → ℚ) : String → ℚ := fun s =>
  if s = symName i "w" ∨ s = symName i "right" then σ s + 1 else σ s

/-- When a node declares neither `w` nor `right` and no expression of the tree
references them, bumping both by one maps solutions to solutions: only the
node's own `right = x + w` identity mentions the two symbols, and it is
preserved by the simultaneous shift. -/
theorem bump_satisfies (es : List Element) (n : Element)
    (hn : n ∈ allElems es) (hnodup : (idsOf es).Nodup)
    (hw : n.attrs.lookup "w" = none) (hr : n.attrs.lookup "right" = none)
    (hrw : symName n.id "w" ∉ treeRefSyms es)
    (hrr : symName n.id "right" ∉ treeRefSyms es)
    (σ : String → ℚ) (hσ : Satisfies σ (get_equations (some es))) :
    Satisfies (bumpWR n.id σ) (get_equations (some es)) := by
  intro eqn heqn
  have hval := hσ eqn heqn
  obtain ⟨e, he, hP⟩ := mem_cases_list es eqn heqn
  have hwk : "w" ∈ probedKeys := by simp [probedKeys]
  have hrk : "right" ∈ probedKeys := by simp [probedKeys]
  rcases hP with ⟨k, hk, hb⟩ | rfl | rfl
  · unfold build_eqn at hb
    cases hl : e.attrs.lookup k with
    | none => rw [hl] at hb; simp at hb
    | some v =>
      rw [hl] at hb
      simp at hb
      subst hb
      have hhead_w : symName e.id k ≠ symName n.id "w" := by
        intro hcontra
        obtain ⟨hid, hkk⟩ := symName_inj hk hwk hcontra
        subst hkk
        rw [id_unique es hnodup he hn hid] at hl
        rw [hl] at hw
        exact Option.noConfusion hw
      have hhead_r : symName e.id k ≠ symName n.id "right" := by
        intro hcontra
        obtain ⟨hid, hkk⟩ := symName_inj hk hrk hcontra
        subst hkk
        rw [id_unique es hnodup he hn hid] at hl
        rw [hl] at hr
        exact Option.noConfusion hr
      have hv : ∀ s ∈ v.refNames, bumpWR n.id σ s = σ s := by
        intro s hs
        have hsin : s ∈ treeRefSyms es :=
          List.mem_flatMap.mpr ⟨e, he, List.mem_flatMap.mpr ⟨(k, v), lookup_mem hl, hs⟩⟩
        have h1 : ¬ s = symName n.id "w" := fun h => hrw (h ▸ hsin)
        have h2 : ¬ s = symName n.id "right" := fun h => hrr (h ▸ hsin)
        simp [bumpWR, h1, h2]
      simp only [SymExpr.eval] at hval ⊢
      rw [show bumpWR n.id σ (symName e.id k) = σ (symName e.id k) by
        simp [bumpWR, hhead_w, hhead_r]]
      rw [eval_congr v hv]
      exact hval
  · simp only [SymExpr.eval, identRight] at hval ⊢
    by_cases hid : e.id = n.id
    · rw [hid] at hval ⊢
      have hx1 : ¬ symName n.id "x" = symName n.id "w" :=
        symName_ne (by simp [probedKeys]) hwk (by decide)
      have hx2 : ¬ symName n.id "x" = symName n.id "right" :=
        symName_ne (by simp [probedKeys]) hrk (by decide)
      have hbw : bumpWR n.id σ (symName n.id "w") = σ (symName n.id "w") + 1 := by
        simp [bumpWR]
      have hbr : bumpWR n.id σ (symName n.id "right") = σ (symName n.id "right") + 1 := by
        simp [bumpWR]
      have hbx : bumpWR n.id σ (symName n.id "x") = σ (symName n.id "x") := by
        simp [bumpWR, hx1, hx2]
      rw [hbw, hbr, hbx]
      linarith
    · have hne : ∀ a, a ∈ probedKeys → bumpWR n.id σ (symName e.id a) = σ (symName e.id a) := by
        intro a ha
        have h1 : ¬ symName e.id a = symName n.id "w" :=
          fun h => hid (symName_inj ha hwk h).1
        have h2 : ¬ symName e.id a = symName n.id "right" :=
          fun h => hid (symName_inj ha hrk h).1
        simp [bumpWR, h1, h2]
      rw [hne "right" (by simp [probedKeys]), hne "x" (by simp [probedKeys]),
        hne "w" hwk]
      exact hval
  · simp only [SymExpr.eval, identBottom] at hval ⊢
    have hne : ∀ a, a ∈ probedKeys → a ≠ "w" → a ≠ "right" →
        bumpWR n.id σ (symName e.id a) = σ (symName e.id a) := by
      intro a ha haw har
      have h1 : ¬ symName e.id a = symName n.id "w" :=
        fun h => haw (symName_inj ha hwk h).2
      have h2 : ¬ symName e.id a = symName n.id "right" :=
        fun h => har (symName_inj ha hrk h).2
      simp [bumpWR, h1, h2]
    rw [hne "bottom" (by simp [probedKeys]) (by decide) (by decide),
      hne "y" (by simp [probedKeys]) (by decide) (by decide),
      hne "h" (by simp [probedKeys]) (by decide) (by decide)]
    exact hval

/-- C3 (amended): in any tree with unique ids, a node declaring neither `w`
nor `right` whose width no expression of the tree pins down leaves the system
genuinely underdetermined — from any solution, bumping that node's `w` (and
`right`) by one gives another solution — yet the solve raises no error at all:
`linsolve` returns a parametrised solution tuple and `main` prints it; no
`UnderdeterminedError` exists in the code. -/
theorem underdetermined_not_reported (es : List Element) (n : Element)
    (hn : n ∈ allElems es) (hnodup : (idsOf es).Nodup)
    (hw : n.attrs.lookup "w" = none) (hr : n.attrs.lookup "right" = none)
    (hrw : symName n.id "w" ∉ treeRefSyms es)
    (hrr : symName n.id "right" ∉ treeRefSyms es)
    (σ : String → ℚ) (hσ : Satisfies σ (get_equations (some es))) :
    Satisfies (bumpWR n.id σ) (get_equations (some es)) ∧
    bumpWR n.id σ (symName n.id "w") = σ (symName n.id "w") + 1 ∧
    ∀ exc, ¬ MainRaises es exc := by
  refine ⟨bump_satisfies es n hn hnodup hw hr hrw hrr σ hσ, by simp [bumpWR], ?_⟩
  intro exc hexc
  cases hexc with
  | idx hempty => exact hempty ⟨σ, hσ⟩

/-- A single-node tree declaring neither `w` nor `right`. -/
def underElem : Element :=
  .mk "Rect" "under" [("x", .lit 0), ("y", .lit 0), ("h", .lit 50)] [] none

theorem E_under : get_equations (some [underElem]) =
    [SymExpr.add (SymExpr.neg (SymExpr.ref "under" "x")) (SymExpr.lit 0),
     SymExpr.add (SymExpr.neg (SymExpr.ref "under" "y")) (SymExpr.lit 0),
     SymExpr.add (SymExpr.neg (SymExpr.ref "under" "h")) (SymExpr.lit 50),
     identRight "under", identBottom "under"] := by
  rw [get_equations_eq, elemsEqns_cons]
  have h0 : elemsEqns [] = [] := by simp [elemsEqns]
  have hn : get_equations none = [] := by simp [get_equations]
  rw [h0, show underElem.children = none from rfl, hn]
  simp only [show build_eqn underElem "x" =
      some (SymExpr.add (SymExpr.neg (SymExpr.ref "under" "x")) (SymExpr.lit 0)) from rfl,
    show build_eqn underElem "y" =
      some (SymExpr.add (SymExpr.neg (SymExpr.ref "under" "y")) (SymExpr.lit 0)) from rfl,
    show build_eqn underElem "w" = none from rfl,
    show build_eqn underElem "h" =
      some (SymExpr.add (SymExpr.neg (SymExpr.ref "under" "h")) (SymExpr.lit 50)) from rfl,
    show build_eqn underElem "right" = none from rfl,
    show build_eqn underElem "bottom" = none from rfl,
    show (Element.id underElem) = "under" from rfl,
    List.map_nil, List.append_nil, List.nil_append]
  simp only [List.filterMap_cons, List.filterMap_nil,
    keepTruthy_build "under" "x" (SymExpr.lit 0) (by decide),
    keepTruthy_build "under" "y" (SymExpr.lit 0) (by decide),
    keepTruthy_build "under" "h" (SymExpr.lit 50) (by decide),
    keepTruthy_identRight, keepTruthy_identBottom, keepTruthy_none]

/-- One solution of the underdetermined single-node system, with `w = 7`. -/
def solU : String → ℚ := fun s =>
  if s = "under__x" then 0 else if s = "under__y" then 0
  else if s = "under__h" then 50 else if s = "under__w" then 7
  else if s = "under__right" then 7 else if s = "under__bottom" then 50 else 0

theorem sat_solU : Satisfies solU (get_equations (some [underElem])) := by
  rw [E_under]
  intro x hx
  simp only [List.mem_cons, List.not_mem_nil, or_false] at hx
  rcases hx with rfl | rfl | rfl | rfl | rfl <;>
    simp [SymExpr.eval, identRight, identBottom, solU, symName] <;> norm_num

theorem allElems_under : allElems [underElem] = [underElem] := by
  rw [allElems_cons, show underElem.children = none from rfl]
  simp [allElems, allElemsOpt]

theorem treeRefSyms_under : treeRefSyms [underElem] = [] := by
  unfold treeRefSyms
  rw [allElems_under]
  rfl

/-- C3 counterexample: the single-node tree declaring only `x`, `y` and `h`
leaves its `w`/`right` free — two explicit satisfying assignments disagree on
`w` — yet the solve raises no `UnderdeterminedError` naming `w` (nor `x` nor
`right`), and no `IndexError` either: the system is satisfiable and `linsolve`
returns a parametrised solution that `main` happily prints. -/
theorem underdetermined_error_never_raised :
    underElem.attrs.lookup "w" = none ∧ underElem.attrs.lookup "right" = none ∧
    Satisfies solU (get_equations (some [underElem])) ∧
    Satisfies (bumpWR "under" solU) (get_equations (some [underElem])) ∧
    bumpWR "under" solU (symName "under" "w") ≠ solU (symName "under" "w") ∧
    ¬ MainRaises [underElem] (PyExc.underdeterminedError (symName "under" "w")) ∧
    ¬ MainRaises [underElem] (PyExc.underdeterminedError (symName "under" "x")) ∧
    ¬ MainRaises [underElem] (PyExc.underdeterminedError (symName "under" "right")) ∧
    ¬ MainRaises [underElem] PyExc.indexError := by
  have hsat := sat_solU
  have hbump : Satisfies (bumpWR "under" solU) (get_equations (some [underElem])) :=
    bump_satisfies [underElem] underElem
      (by rw [allElems_under]; exact List.mem_cons_self _ _)
      (by unfold idsOf; rw [allElems_under]; decide)
      rfl rfl
      (by rw [treeRefSyms_under]; simp)
      (by rw [treeRefSyms_under]; simp)
      solU hsat
  refine ⟨rfl, rfl, hsat, hbump, ?_, ?_, ?_, ?_, ?_⟩
  · simp [bumpWR, solU, symName]
  · exact fun h => nomatch h
  · exact fun h => nomatch h
  · exact fun h => nomatch h
  · intro h
    cases h with
    | idx hempty => exact hempty ⟨solU, hsat⟩

/-- Witness for C3's amended statement at the concrete underdetermined tree
and its solution `solU`. -/
theorem underdetermined_not_reported_witness :
    Satisfies (bumpWR "under" solU) (get_equations (some [underElem])) ∧
    bumpWR "under" solU (symName "under" "w") = solU (symName "under" "w") + 1 ∧
    ¬ MainRaises [underElem] (PyExc.underdeterminedError (symName "under" "w")) := by
  have h := underdetermined_not_reported [underElem] underElem
    (by rw [allElems_under]; exact List.mem_cons_self _ _)
    (by unfold idsOf; rw [allElems_under]; decide)
    rfl rfl
    (by rw [treeRefSyms_under]; simp)
    (by rw [treeRefSyms_under]; simp)
    solU sat_solU
  exact ⟨h.1, h.2.1, h.2.2 _⟩

/-- A single-node tree whose `w` references a node id that exists nowhere. -/
def ghostElem : Element :=
  .mk "Rect" "spook"
    [("x", .lit 0), ("y", .lit 0), ("w", .ref "ghost" "w"), ("h", .lit 50)] [] none

theorem E_ghost : get_equations (some [ghostElem]) =
    [SymExpr.add (SymExpr.neg (SymExpr.ref "spook" "x")) (SymExpr.lit 0),
     SymExpr.add (SymExpr.neg (SymExpr.ref "spook" "y")) (SymExpr.lit 0),
     SymExpr.add (SymExpr.neg (SymExpr.ref "spook" "w")) (SymExpr.ref "ghost" "w"),
     SymExpr.add (SymExpr.neg (SymExpr.ref "spook" "h")) (SymExpr.lit 50),
     identRight "spook", identBottom "spook"] := by
  rw [get_equations_eq, elemsEqns_cons]
  have h0 : elemsEqns [] = [] := by simp [elemsEqns]
  have hn : get_equations none = [] := by simp [get_equations]
  rw [h0, show ghostElem.children = none from rfl, hn]
  simp only [show build_eqn ghostElem "x" =
      some (SymExpr.add (SymExpr.neg (SymExpr.ref "spook" "x")) (SymExpr.lit 0)) from rfl,
    show build_eqn ghostElem "y" =
      some (SymExpr.add (SymExpr.neg (SymExpr.ref "spook" "y")) (SymExpr.lit 0)) from rfl,
    show build_eqn ghostElem "w" = some (SymExpr.add (SymExpr.neg (SymExpr.ref "spook" "w"))
      (SymExpr.ref "ghost" "w")) from rfl,
    show build_eqn ghostElem "h" =
      some (SymExpr.add (SymExpr.neg (SymExpr.ref "spook" "h")) (SymExpr.lit 50)) from rfl,
    show build_eqn ghostElem "right" = none from rfl,
    show build_eqn ghostElem "bottom" = none from rfl,
    show (Element.id ghostElem) = "spook" from rfl,
    List.map_nil, List.append_nil, List.nil_append]
  simp only [List.filterMap_cons, List.filterMap_nil,
    keepTruthy_build "spook" "x" (SymExpr.lit 0) (by decide),
    keepTruthy_build "spook" "y" (SymExpr.lit 0) (by decide),
    keepTruthy_build "spook" "w" (SymExpr.ref "ghost" "w") (by decide),
    keepTruthy_build "spook" "h" (SymExpr.lit 50) (by decide),
    keepTruthy_identRight, keepTruthy_identBottom, keepTruthy_none]

theorem allElems_ghost : allElems [ghostElem] = [ghostElem] := by
  rw [allElems_cons, show ghostElem.children = none from rfl]
  simp [allElems, allElemsOpt]

/-- A satisfying assignment of the ghost system: the dangling reference simply
became the free unknown `ghost__w`, here set to 5. -/
def solG : String → ℚ := fun s =>
  if s = "spook__x" then 0 else if s = "spook__y" then 0
  else if s = "spook__w" then 5 else if s = "spook__h" then 50
  else if s = "spook__right" then 5 else if s = "spook__bottom" then 50
  else if s = "ghost__w" then 5 else 0

theorem sat_solG : Satisfies solG (get_equations (some [ghostElem])) := by
  rw [E_ghost]
  intro x hx
  simp only [List.mem_cons, List.not_mem_nil, or_false] at hx
  rcases hx with rfl | rfl | rfl | rfl | rfl | rfl <;>
    simp [SymExpr.eval, identRight, identBottom, solG, symName] <;> norm_num

/-- C8 counterexample: with a dotted reference to the nonexistent id `ghost`,
resolution does not fail — the full six-equation system is assembled, the
dangling reference becomes the collected unknown `ghost__w`, the system is
even satisfiable, and the solve raises nothing. -/
theorem unknown_reference_not_detected :
    "ghost" ∉ idsOf [ghostElem] ∧
    symName "ghost" "w" ∈ treeRefSyms [ghostElem] ∧
    (get_equations (some [ghostElem])).length = 6 ∧
    symName "ghost" "w" ∈ symbolsOf (get_equations (some [ghostElem])) ∧
    Satisfies solG (get_equations (some [ghostElem])) ∧
    ¬ MainRaises [ghostElem] PyExc.indexError := by
  have hsat := sat_solG
  refine ⟨?_, ?_, ?_, ?_, hsat, ?_⟩
  · unfold idsOf
    rw [allElems_ghost]
    decide
  · unfold treeRefSyms
    rw [allElems_ghost]
    decide
  · rw [E_ghost]; rfl
  · simp only [symbolsOf, List.mem_dedup]
    refine List.mem_flatMap.mpr
      ⟨SymExpr.add (SymExpr.neg (SymExpr.ref "spook" "w")) (SymExpr.ref "ghost" "w"),
        by rw [E_ghost]; simp, ?_⟩
    have hne : ¬ symName "ghost" "w" = symName "spook" "w" := by decide
    norm_num [SymExpr.atoms, SymExpr.lin, linAdd, linScale, addTerm, hne, symName]
    decide
  · intro h
    cases h with
    | idx hempty => exact hempty ⟨solG, hsat⟩

/-- C8 (amended): equation building performs no reference validation and never
consults the set of node ids: every declared attribute among the six probed
keys whose equation does not simplify to zero is emitted into the assembled
system — even when its expression references a nonexistent node id, which
simply becomes one more unknown — and the system is then handed to `linsolve`;
no `UnknownReferenceError` exists in the code. -/
theorem equations_assembled_despite_unknown_reference
    (es : List Element) (e : Element) (he : e ∈ allElems es) (k : String)
    (hk : k ∈ probedKeys) (x : SymExpr) (hb : build_eqn e k = some x)
    (ht : sympyNonzero x = true) : x ∈ get_equations (some es) :=
  decl_mem_list es e he k hk x hb ht

/-- Witness for C8's amended statement: the equation tying `spook.w` to the
nonexistent `ghost.w` is in the assembled system. -/
theorem equations_assembled_despite_unknown_reference_witness :
    SymExpr.add (SymExpr.neg (SymExpr.ref "spook" "w")) (SymExpr.ref "ghost" "w") ∈
      get_equations (some [ghostElem]) :=
  equations_assembled_despite_unknown_reference [ghostElem] ghostElem
    (by rw [allElems_ghost]; exact List.mem_cons_self _ _)
    "w" (by simp [probedKeys]) _ rfl
    (truthy_build "spook" "w" (SymExpr.ref "ghost" "w") (by decide))

end ConstraintSolver
